import Mathlib

/-!
Verification of the Eulerian-path constraint encoder in `src/euler_paths.py`.

The script builds, from an adjacency matrix, a Z3 constraint set over two
unknown integer functions `P` (vertex sequence) and `t` (edge-occurrence to
path-slot permutation), asks for satisfiability, and decodes the path as
`P(0), ..., P(k)`.  Below, the matrix walk, the asserted formulas and the
decoding are embedded shallowly; formulas are data evaluated against an
interpretation of `P` and `t`, and "the solver reports Satisfiable" is the
existence of an interpretation making every asserted formula true.
-/

set_option maxHeartbeats 1000000

namespace EulerZ3

/-- An input adjacency matrix: the list of rows fed to `np.matrix` at line 31. -/
abbrev Mat := List (List ℤ)

/-- Number of vertices: the number of rows (`n = np.shape(adj)[0]`, line 32). -/
def nVerts (adj : Mat) : ℕ := adj.length

/-- Matrix entry access `adj[i,j]`.  Out-of-range reads default to `0` here,
whereas the script itself would raise an uncaught `IndexError`; on square
inputs, where only in-range upper-triangle entries are read, this access is
exact, and every theorem below that speaks about the input stays within that
square domain. -/
def entry (adj : Mat) (i j : ℕ) : ℤ := (adj.getD i []).getD j 0

/-- Integer terms over the two unknown Z3 functions `P` and `t`
(declared at lines 22-23 of the script). -/
inductive Expr
| lit : ℤ → Expr
| tApp : Expr → Expr
| pApp : Expr → Expr
| add : Expr → Expr → Expr
deriving DecidableEq

/-- The formulas the script asserts into the solver. -/
inductive Formula
| eq : Expr → Expr → Formula
| le : Expr → Expr → Formula
| ge : Expr → Expr → Formula
| ne : Expr → Expr → Formula
| and : Formula → Formula → Formula
| or : Formula → Formula → Formula
deriving DecidableEq

/-- Value of a term under an interpretation of the unknown functions. -/
def evalExpr (P t : ℤ → ℤ) : Expr → ℤ
| .lit c => c
| .tApp a => t (evalExpr P t a)
| .pApp a => P (evalExpr P t a)
| .add a b => evalExpr P t a + evalExpr P t b

/-- Truth value of a formula under an interpretation of the unknown functions. -/
def evalForm (P t : ℤ → ℤ) : Formula → Bool
| .eq a b => evalExpr P t a == evalExpr P t b
| .le a b => decide (evalExpr P t a ≤ evalExpr P t b)
| .ge a b => decide (evalExpr P t b ≤ evalExpr P t a)
| .ne a b => evalExpr P t a != evalExpr P t b
| .and f g => evalForm P t f && evalForm P t g
| .or f g => evalForm P t f || evalForm P t g

/-- The disjunction asserted at line 48 for the edge occurrence with running
index `e` and endpoints `u`, `v`:
`Or(And(P(t(e))==u, P(t(e)+1)==v), And(P(t(e))==v, P(t(e)+1)==u))`. -/
def edgeFormula (e u v : ℕ) : Formula :=
  .or (.and (.eq (.pApp (.tApp (.lit (e : ℤ)))) (.lit (u : ℤ)))
            (.eq (.pApp (.add (.tApp (.lit (e : ℤ))) (.lit 1))) (.lit (v : ℤ))))
      (.and (.eq (.pApp (.tApp (.lit (e : ℤ)))) (.lit (v : ℤ)))
            (.eq (.pApp (.add (.tApp (.lit (e : ℤ))) (.lit 1))) (.lit (u : ℤ))))

/-- The upper-bound constraint `t(i) <= k - 1` asserted at line 51. -/
def tLe (i k : ℕ) : Formula := .le (.tApp (.lit (i : ℤ))) (.lit ((k : ℤ) - 1))

/-- The lower-bound constraint `t(i) >= 0` asserted at line 51. -/
def tGe (i : ℕ) : Formula := .ge (.tApp (.lit (i : ℤ))) (.lit 0)

/-- The distinctness constraint `t(i) != t(j)` asserted at line 55. -/
def tNe (i j : ℕ) : Formula := .ne (.tApp (.lit (i : ℤ))) (.tApp (.lit (j : ℤ)))

/-- Lines 43-49 of the script: the nested loops
`for i in range(n): for j in range(i,n): if adj[i,j] != 0: for g in range(adj[i,j]): s.add(...); k += 1`
threading the list of asserted formulas and the edge counter `k` through the
iteration.  `range(i, n)` is `List.range' i (n - i)`, and Python `range(m)` of
a negative `m` is empty, hence `Int.toNat`. -/
def edgeLoop (adj : Mat) : List Formula × ℕ :=
  (List.range (nVerts adj)).foldl
    (fun acc i =>
      (List.range' i (nVerts adj - i)).foldl
        (fun acc2 j =>
          if entry adj i j ≠ 0 then
            (List.range (entry adj i j).toNat).foldl
              (fun acc3 _g => (acc3.1 ++ [edgeFormula acc3.2 i j], acc3.2 + 1))
              acc2
          else acc2)
        acc)
    ([], 0)

/-- The final value of the edge counter `k` (line 43, after the loops). -/
def kCount (adj : Mat) : ℕ := (edgeLoop adj).2

/-- Lines 50-55 of the script: for each `i < k` assert `t(i) <= k-1` and
`t(i) >= 0`, then `t(i) != t(j)` for every `j < k` with `j != i`
(the `i == j` case is skipped by `continue`). -/
def permLoop (adj : Mat) : List Formula :=
  (List.range (kCount adj)).foldl
    (fun acc i =>
      (List.range (kCount adj)).foldl
        (fun acc2 j => if i = j then acc2 else acc2 ++ [tNe i j])
        (acc ++ [tLe i (kCount adj), tGe i]))
    []

/-- The complete constraint set asserted into the solver `s`, in assertion
order: first the per-edge disjunctions, then the permutation constraints. -/
def constraints (adj : Mat) : List Formula := (edgeLoop adj).1 ++ permLoop adj

/-- The ordered list of edge occurrences read off the upper triangle in scan
order, one occurrence per unit of multiplicity: the Graph Loader output. -/
def edgeList (adj : Mat) : List (ℕ × ℕ) :=
  (List.range (nVerts adj)).flatMap (fun i =>
    (List.range' i (nVerts adj - i)).flatMap (fun j =>
      List.replicate (entry adj i j).toNat (i, j)))

/-- Emit the edge disjunctions for a list of occurrences, numbering them from
`c` upward. -/
def emitFrom : ℕ → List (ℕ × ℕ) → List Formula
| _, [] => []
| c, uv :: rest => edgeFormula c uv.1 uv.2 :: emitFrom (c + 1) rest

/-- Flat form of the permutation constraints for a given edge count `k`. -/
def permFlat (k : ℕ) : List Formula :=
  (List.range k).flatMap (fun i =>
    tLe i k :: tGe i :: ((List.range k).filter (fun j => i != j)).map (tNe i))

/-- Z3 reports `sat`: some interpretation of `P` and `t` makes every asserted
formula true. -/
def Satisfiable (adj : Mat) : Prop :=
  ∃ P t : ℤ → ℤ, (constraints adj).all (evalForm P t) = true

/-- Lines 76-79 of the script: the decoded path
`[m.evaluate(P(i)) for i in range(k+1)]`. -/
def decode (P : ℤ → ℤ) (k : ℕ) : List ℤ :=
  (List.range (k + 1)).map (fun i : ℕ => P (i : ℤ))

/-- The three-way verdict of `s.check()` (line 62); a `sat` verdict carries the
model, i.e. the interpretation of the two unknown functions. -/
inductive Verdict
| sat (P t : ℤ → ℤ)
| unsat
| unknown

/-- The terminations the script can produce: `exit()` at line 67, or the
decoded-path printout at line 79. -/
inductive CodeOutcome
| exited
| printedPath (p : List ℤ)
deriving DecidableEq

/-- Lines 62-79 of the script: on `unsat` it calls `exit()`; otherwise it
unconditionally requests `s.model()` and decodes.  On an `unknown` verdict no
model exists and the `s.model()` call raises an uncaught exception, so the
invocation aborts producing no outcome (`none`). -/
def run (adj : Mat) (r : Verdict) : Option CodeOutcome :=
  match r with
  | .unsat => some .exited
  | .sat P _t => some (.printedPath (decode P (kCount adj)))
  | .unknown => none

/-- Number of endpoints of the edge occurrence `e` equal to `v`; a self-loop
at `v` counts twice. -/
def inc (v : ℕ) (e : ℕ × ℕ) : ℕ :=
  (if e.1 = v then 1 else 0) + (if e.2 = v then 1 else 0)

/-- Degree of vertex `v` in the multigraph described by the input matrix. -/
def degA (adj : Mat) (v : ℕ) : ℕ := ((edgeList adj).map (inc v)).sum

/-- The odd-degree vertices among the `n` vertices of the input. -/
def oddVerts (adj : Mat) : Finset ℕ :=
  (Finset.range (nVerts adj)).filter (fun v => ¬ 2 ∣ degA adj v)

/-- Two vertices joined by at least one edge occurrence. -/
def adjacentA (adj : Mat) (u v : ℕ) : Prop :=
  (u, v) ∈ edgeList adj ∨ (v, u) ∈ edgeList adj

/-- Reachability along edge occurrences. -/
def ReachA (adj : Mat) : ℕ → ℕ → Prop := Relation.ReflTransGen (adjacentA adj)

/-- The input multigraph is connected: all of its `n` vertices are mutually
reachable. -/
def Connected (adj : Mat) : Prop :=
  ∀ u, u < nVerts adj → ∀ v, v < nVerts adj → ReachA adj u v

/-- The input matrix is square. -/
def IsSquare (adj : Mat) : Prop := ∀ row ∈ adj, row.length = adj.length

/-- All matrix entries in range are non-negative. -/
def Nonneg (adj : Mat) : Prop :=
  ∀ i, i < nVerts adj → ∀ j, j < nVerts adj → 0 ≤ entry adj i j

/-- The matrix is symmetric on its `n × n` range. -/
def SymmetricMat (adj : Mat) : Prop :=
  ∀ i, i < nVerts adj → ∀ j, j < nVerts adj → entry adj i j = entry adj j i

/-- A list of oriented steps is chained: each step starts at the endpoint of
the previous one. -/
def Chained (q : List (ℕ × ℕ)) : Prop :=
  List.Chain' (fun a b : ℕ × ℕ => a.2 = b.1) q

/-- Normalize an edge so that its smaller endpoint comes first. -/
def nrm (e : ℕ × ℕ) : ℕ × ℕ := (min e.1 e.2, max e.1 e.2)

/-- First vertex of a step list (default `0` on the empty list). -/
def firstV (q : List (ℕ × ℕ)) : ℕ := (q.headD (0, 0)).1

/-- Last vertex of a step list (default `0` on the empty list). -/
def lastV (q : List (ℕ × ℕ)) : ℕ := (q.getLastD (0, 0)).2

/-- The step list is a chained walk from `a` to `b` (the empty walk requires
`a = b`). -/
def ChainFromTo (a b : ℕ) (q : List (ℕ × ℕ)) : Prop :=
  Chained q ∧ (q = [] → a = b) ∧ (q ≠ [] → firstV q = a ∧ lastV q = b)

/-- The multiset of normalized steps of a walk. -/
def steps (q : List (ℕ × ℕ)) : Multiset (ℕ × ℕ) := (q.map nrm : Multiset (ℕ × ℕ))

/-- Degree of `v` in a multiset of edge occurrences. -/
def degM (E : Multiset (ℕ × ℕ)) (v : ℕ) : ℕ := (E.map (inc v)).sum

/-- Adjacency in a multiset of edge occurrences. -/
def adjM (E : Multiset (ℕ × ℕ)) (u v : ℕ) : Prop := (u, v) ∈ E ∨ (v, u) ∈ E

/-- Reachability in a multiset of edge occurrences. -/
def ReachM (E : Multiset (ℕ × ℕ)) : ℕ → ℕ → Prop := Relation.ReflTransGen (adjM E)

/-- All edges of the multiset have their smaller endpoint first. -/
def Normed (E : Multiset (ℕ × ℕ)) : Prop := ∀ e ∈ E, e.1 ≤ e.2

/-- Vertex visited at position `s` of the walk `q`: the start of step `s`, or
the end of the walk past the last step. -/
def vtx (q : List (ℕ × ℕ)) (s : ℕ) : ℕ :=
  if h : s < q.length then (q.get ⟨s, h⟩).1 else lastV q

/-- The vertex `v` lies on the walk `q` based at `x`. -/
def onWalk (q : List (ℕ × ℕ)) (x v : ℕ) : Prop :=
  v = x ∨ ∃ st ∈ q, st.1 = v ∨ st.2 = v

/-- The oriented walk read off a model: step `s` goes from `P s` to `P (s+1)`. -/
def trailOf (P : ℤ → ℤ) (k : ℕ) : List (ℕ × ℕ) :=
  (List.range k).map (fun s : ℕ => ((P (s : ℤ)).toNat, (P ((s : ℤ) + 1)).toNat))

/-- Vertex-sequence model read off a walk. -/
def modelP (q : List (ℕ × ℕ)) : ℤ → ℤ := fun z => ((vtx q z.toNat : ℕ) : ℤ)

/-- Slot model: sends an edge index below `n` through the matching `g`. -/
def modelT (n : ℕ) (g : ℕ → ℕ) : ℤ → ℤ :=
  fun z => if z.toNat < n then ((g z.toNat : ℕ) : ℤ) else 0

/-- Property stated by the coverage law for a satisfying model: every edge
occurrence occupies exactly one in-bounds adjacent slot pair, in one of its
two directions; distinct occurrences occupy distinct slots; and every slot is
occupied by some occurrence. -/
def Covers (adj : Mat) (P t : ℤ → ℤ) : Prop :=
  (∀ e, e < kCount adj →
      0 ≤ t (e : ℤ) ∧ t (e : ℤ) ≤ (kCount adj : ℤ) - 1 ∧
      ((P (t (e : ℤ)) = (((edgeList adj).getD e (0, 0)).1 : ℤ) ∧
        P (t (e : ℤ) + 1) = (((edgeList adj).getD e (0, 0)).2 : ℤ)) ∨
       (P (t (e : ℤ)) = (((edgeList adj).getD e (0, 0)).2 : ℤ) ∧
        P (t (e : ℤ) + 1) = (((edgeList adj).getD e (0, 0)).1 : ℤ)))) ∧
  (∀ e f : ℕ, e < kCount adj → f < kCount adj → t (e : ℤ) = t (f : ℤ) → e = f) ∧
  (∀ s : ℤ, 0 ≤ s → s ≤ (kCount adj : ℤ) - 1 → ∃ e, e < kCount adj ∧ t (e : ℤ) = s)

/-- The parity law for an input matrix: on a connected multigraph the
constraint set is satisfiable iff the number of odd-degree vertices is 0 or 2,
and if two edge occurrences lie in different connected components the
constraint set is unsatisfiable. -/
def ParityStatement (adj : Mat) : Prop :=
  (Connected adj → (Satisfiable adj ↔ (oddVerts adj).card = 0 ∨ (oddVerts adj).card = 2)) ∧
  ((∃ e1 ∈ edgeList adj, ∃ e2 ∈ edgeList adj, ¬ ReachA adj e1.1 e2.1) → ¬ Satisfiable adj)

instance decNonneg (adj : Mat) : Decidable (Nonneg adj) :=
  inferInstanceAs
    (Decidable (∀ i, i < nVerts adj → ∀ j, j < nVerts adj → 0 ≤ entry adj i j))

instance decSymmetric (adj : Mat) : Decidable (SymmetricMat adj) :=
  inferInstanceAs
    (Decidable (∀ i, i < nVerts adj → ∀ j, j < nVerts adj → entry adj i j = entry adj j i))

instance decIsSquare (adj : Mat) : Decidable (IsSquare adj) :=
  inferInstanceAs (Decidable (∀ row ∈ adj, row.length = adj.length))

/-! ### Bridging the imperative loops to their list-comprehension form -/

theorem emitFrom_nil (c : ℕ) : emitFrom c [] = [] := rfl

theorem emitFrom_cons (c : ℕ) (uv : ℕ × ℕ) (rest : List (ℕ × ℕ)) :
    emitFrom c (uv :: rest) = edgeFormula c uv.1 uv.2 :: emitFrom (c + 1) rest := rfl

theorem emitFrom_append (c : ℕ) (L1 L2 : List (ℕ × ℕ)) :
    emitFrom c (L1 ++ L2) = emitFrom c L1 ++ emitFrom (c + L1.length) L2 := by
  induction L1 generalizing c with
  | nil => simp [emitFrom_nil]
  | cons uv rest ih =>
      have h2 : c + (rest.length + 1) = c + 1 + rest.length := by omega
      simp only [List.cons_append, emitFrom_cons, ih, List.length_cons, h2]

theorem length_emitFrom (c : ℕ) (L : List (ℕ × ℕ)) :
    (emitFrom c L).length = L.length := by
  induction L generalizing c with
  | nil => rfl
  | cons uv rest ih => simp [emitFrom_cons, ih]

theorem foldl_emit_const {β : Type} (L : List β) (u v : ℕ) :
    ∀ (cs : List Formula) (c : ℕ),
      L.foldl (fun a _ => (a.1 ++ [edgeFormula a.2 u v], a.2 + 1)) (cs, c)
        = (cs ++ emitFrom c (List.replicate L.length (u, v)), c + L.length) := by
  induction L with
  | nil => intro cs c; simp [emitFrom_nil]
  | cons x rest ih =>
      intro cs c
      rw [List.foldl_cons, ih]
      simp only [List.length_cons, List.replicate_succ, emitFrom_cons, Prod.mk.injEq]
      refine ⟨by simp, by omega⟩

theorem foldl_blocks {α : Type} (f : (List Formula × ℕ) → α → (List Formula × ℕ))
    (g : α → List (ℕ × ℕ))
    (hf : ∀ a x, f a x = (a.1 ++ emitFrom a.2 (g x), a.2 + (g x).length)) :
    ∀ (L : List α) (cs : List Formula) (c : ℕ),
      L.foldl f (cs, c) = (cs ++ emitFrom c (L.flatMap g), c + (L.flatMap g).length) := by
  intro L
  induction L with
  | nil => intro cs c; simp [emitFrom_nil]
  | cons x rest ih =>
      intro cs c
      simp only [List.foldl_cons, hf, ih, List.flatMap_cons, emitFrom_append,
        List.length_append, List.append_assoc, Prod.mk.injEq]
      exact ⟨trivial, by omega⟩

theorem edgeLoop_spec (adj : Mat) :
    edgeLoop adj = (emitFrom 0 (edgeList adj), (edgeList adj).length) := by
  have hinner : ∀ i : ℕ,
      ∀ a2 : List Formula × ℕ, ∀ j : ℕ,
        (if entry adj i j ≠ 0 then
            (List.range (entry adj i j).toNat).foldl
              (fun acc3 _g => (acc3.1 ++ [edgeFormula acc3.2 i j], acc3.2 + 1)) a2
          else a2)
        = (a2.1 ++ emitFrom a2.2 (List.replicate (entry adj i j).toNat (i, j)),
           a2.2 + (List.replicate (entry adj i j).toNat (i, j)).length) := by
    rintro i ⟨cs, c⟩ j
    by_cases h : entry adj i j ≠ 0
    · rw [if_pos h, foldl_emit_const]
      simp
    · rw [if_neg h]
      push_neg at h
      simp [h, emitFrom_nil]
  have hrow : ∀ (a : List Formula × ℕ) (i : ℕ),
      (List.range' i (nVerts adj - i)).foldl
        (fun acc2 j =>
          if entry adj i j ≠ 0 then
            (List.range (entry adj i j).toNat).foldl
              (fun acc3 _g => (acc3.1 ++ [edgeFormula acc3.2 i j], acc3.2 + 1)) acc2
          else acc2) a
      = (a.1 ++ emitFrom a.2
            ((List.range' i (nVerts adj - i)).flatMap
              (fun j => List.replicate (entry adj i j).toNat (i, j))),
         a.2 + ((List.range' i (nVerts adj - i)).flatMap
              (fun j => List.replicate (entry adj i j).toNat (i, j))).length) := by
    intro a i
    have := foldl_blocks
      (fun acc2 j =>
        if entry adj i j ≠ 0 then
          (List.range (entry adj i j).toNat).foldl
            (fun acc3 _g => (acc3.1 ++ [edgeFormula acc3.2 i j], acc3.2 + 1)) acc2
        else acc2)
      (fun j => List.replicate (entry adj i j).toNat (i, j))
      (fun a2 j => hinner i a2 j)
      (List.range' i (nVerts adj - i)) a.1 a.2
    simpa using this
  have hmain := foldl_blocks
    (fun acc i =>
      (List.range' i (nVerts adj - i)).foldl
        (fun acc2 j =>
          if entry adj i j ≠ 0 then
            (List.range (entry adj i j).toNat).foldl
              (fun acc3 _g => (acc3.1 ++ [edgeFormula acc3.2 i j], acc3.2 + 1)) acc2
          else acc2) acc)
    (fun i => (List.range' i (nVerts adj - i)).flatMap
        (fun j => List.replicate (entry adj i j).toNat (i, j)))
    (fun a i => hrow a i)
    (List.range (nVerts adj)) [] 0
  simpa [edgeLoop, edgeList] using hmain

theorem kCount_eq (adj : Mat) : kCount adj = (edgeList adj).length := by
  simp [kCount, edgeLoop_spec]

theorem foldl_ne (i : ℕ) :
    ∀ (js : List ℕ) (acc : List Formula),
      js.foldl (fun a2 j => if i = j then a2 else a2 ++ [tNe i j]) acc
        = acc ++ (js.filter (fun j => i != j)).map (tNe i) := by
  intro js
  induction js with
  | nil => intro acc; simp
  | cons j rest ih =>
      intro acc
      by_cases h : i = j
      · subst h
        rw [List.foldl_cons, if_pos rfl, ih, List.filter_cons]
        simp
      · rw [List.foldl_cons, if_neg h, ih, List.filter_cons]
        have hb : (i != j) = true := by simpa using h
        simp [hb]

theorem foldl_app {α : Type} (f : List Formula → α → List Formula)
    (g : α → List Formula) (hf : ∀ a x, f a x = a ++ g x) :
    ∀ (L : List α) (acc : List Formula),
      L.foldl f acc = acc ++ L.flatMap g := by
  intro L
  induction L with
  | nil => intro acc; simp
  | cons x rest ih => intro acc; simp [List.foldl_cons, hf, ih]

theorem permLoop_spec (adj : Mat) : permLoop adj = permFlat (kCount adj) := by
  have hbody : ∀ (acc : List Formula) (i : ℕ),
      (List.range (kCount adj)).foldl
        (fun acc2 j => if i = j then acc2 else acc2 ++ [tNe i j])
        (acc ++ [tLe i (kCount adj), tGe i])
      = acc ++ (tLe i (kCount adj) :: tGe i ::
          ((List.range (kCount adj)).filter (fun j => i != j)).map (tNe i)) := by
    intro acc i
    rw [foldl_ne]
    simp
  have := foldl_app
    (fun acc i =>
      (List.range (kCount adj)).foldl
        (fun acc2 j => if i = j then acc2 else acc2 ++ [tNe i j])
        (acc ++ [tLe i (kCount adj), tGe i]))
    (fun i => tLe i (kCount adj) :: tGe i ::
        ((List.range (kCount adj)).filter (fun j => i != j)).map (tNe i))
    (fun a i => hbody a i)
    (List.range (kCount adj)) []
  simpa [permLoop, permFlat] using this

theorem constraints_eq (adj : Mat) :
    constraints adj = emitFrom 0 (edgeList adj) ++ permFlat (kCount adj) := by
  simp [constraints, edgeLoop_spec, permLoop_spec]

/-! ### Membership and semantics of the asserted constraints -/

theorem mem_emitFrom (f : Formula) (L : List (ℕ × ℕ)) (c : ℕ) :
    f ∈ emitFrom c L ↔ ∃ s, s < L.length ∧
      f = edgeFormula (c + s) ((L.getD s (0, 0)).1) ((L.getD s (0, 0)).2) := by
  induction L generalizing c with
  | nil => simp [emitFrom_nil]
  | cons uv rest ih =>
      rw [emitFrom_cons, List.mem_cons, ih]
      constructor
      · rintro (rfl | ⟨s, hs, rfl⟩)
        · exact ⟨0, by simp, by simp⟩
        · refine ⟨s + 1, by simpa using Nat.succ_lt_succ hs, ?_⟩
          have hc : c + (s + 1) = c + 1 + s := by omega
          simp [List.getD_cons_succ, hc]
      · rintro ⟨s, hs, rfl⟩
        match s with
        | 0 => exact Or.inl (by simp)
        | s + 1 =>
            refine Or.inr ⟨s, by simp only [List.length_cons] at hs; omega, ?_⟩
            have hc : c + (s + 1) = c + 1 + s := by omega
            simp [List.getD_cons_succ, hc]

theorem mem_permFlat (f : Formula) (k : ℕ) :
    f ∈ permFlat k ↔ ∃ i, i < k ∧
      (f = tLe i k ∨ f = tGe i ∨ ∃ j, j < k ∧ i ≠ j ∧ f = tNe i j) := by
  simp only [permFlat, List.mem_flatMap, List.mem_range, List.mem_cons, List.mem_map,
    List.mem_filter, bne_iff_ne]
  constructor
  · rintro ⟨i, hi, (rfl | rfl | ⟨j, ⟨hj, hne⟩, rfl⟩)⟩
    · exact ⟨i, hi, Or.inl rfl⟩
    · exact ⟨i, hi, Or.inr (Or.inl rfl)⟩
    · exact ⟨i, hi, Or.inr (Or.inr ⟨j, by simpa using hj, hne, rfl⟩)⟩
  · rintro ⟨i, hi, (rfl | rfl | ⟨j, hj, hne, rfl⟩)⟩
    · exact ⟨i, hi, Or.inl rfl⟩
    · exact ⟨i, hi, Or.inr (Or.inl rfl)⟩
    · exact ⟨i, hi, Or.inr (Or.inr ⟨j, ⟨by simpa using hj, hne⟩, rfl⟩)⟩

theorem evalForm_edgeFormula (P t : ℤ → ℤ) (e u v : ℕ) :
    (evalForm P t (edgeFormula e u v) = true) ↔
      ((P (t (e : ℤ)) = (u : ℤ) ∧ P (t (e : ℤ) + 1) = (v : ℤ)) ∨
       (P (t (e : ℤ)) = (v : ℤ) ∧ P (t (e : ℤ) + 1) = (u : ℤ))) := by
  simp [edgeFormula, evalForm, evalExpr]

theorem evalForm_tLe (P t : ℤ → ℤ) (i k : ℕ) :
    (evalForm P t (tLe i k) = true) ↔ t (i : ℤ) ≤ (k : ℤ) - 1 := by
  simp [tLe, evalForm, evalExpr]

theorem evalForm_tGe (P t : ℤ → ℤ) (i : ℕ) :
    (evalForm P t (tGe i) = true) ↔ 0 ≤ t (i : ℤ) := by
  simp [tGe, evalForm, evalExpr]

theorem evalForm_tNe (P t : ℤ → ℤ) (i j : ℕ) :
    (evalForm P t (tNe i j) = true) ↔ t (i : ℤ) ≠ t (j : ℤ) := by
  simp [tNe, evalForm, evalExpr]

theorem sat_edge {adj : Mat} {P t : ℤ → ℤ}
    (h : (constraints adj).all (evalForm P t) = true)
    {s : ℕ} (hs : s < kCount adj) :
    (P (t (s : ℤ)) = (((edgeList adj).getD s (0, 0)).1 : ℤ) ∧
     P (t (s : ℤ) + 1) = (((edgeList adj).getD s (0, 0)).2 : ℤ)) ∨
    (P (t (s : ℤ)) = (((edgeList adj).getD s (0, 0)).2 : ℤ) ∧
     P (t (s : ℤ) + 1) = (((edgeList adj).getD s (0, 0)).1 : ℤ)) := by
  rw [List.all_eq_true] at h
  have hmem : edgeFormula s ((edgeList adj).getD s (0, 0)).1 ((edgeList adj).getD s (0, 0)).2
      ∈ constraints adj := by
    rw [constraints_eq]
    refine List.mem_append_left _ ?_
    rw [mem_emitFrom]
    exact ⟨s, by rwa [kCount_eq] at hs, by simp⟩
  have hc := h _ hmem
  rwa [evalForm_edgeFormula] at hc

theorem sat_tLe {adj : Mat} {P t : ℤ → ℤ}
    (h : (constraints adj).all (evalForm P t) = true)
    {i : ℕ} (hi : i < kCount adj) : t (i : ℤ) ≤ (kCount adj : ℤ) - 1 := by
  rw [List.all_eq_true] at h
  have hmem : tLe i (kCount adj) ∈ constraints adj := by
    rw [constraints_eq]
    refine List.mem_append_right _ ?_
    rw [mem_permFlat]
    exact ⟨i, hi, Or.inl rfl⟩
  have hc := h _ hmem
  rwa [evalForm_tLe] at hc

theorem sat_tGe {adj : Mat} {P t : ℤ → ℤ}
    (h : (constraints adj).all (evalForm P t) = true)
    {i : ℕ} (hi : i < kCount adj) : 0 ≤ t (i : ℤ) := by
  rw [List.all_eq_true] at h
  have hmem : tGe i ∈ constraints adj := by
    rw [constraints_eq]
    refine List.mem_append_right _ ?_
    rw [mem_permFlat]
    exact ⟨i, hi, Or.inr (Or.inl rfl)⟩
  have hc := h _ hmem
  rwa [evalForm_tGe] at hc

theorem sat_tNe {adj : Mat} {P t : ℤ → ℤ}
    (h : (constraints adj).all (evalForm P t) = true)
    {i j : ℕ} (hi : i < kCount adj) (hj : j < kCount adj) (hne : i ≠ j) :
    t (i : ℤ) ≠ t (j : ℤ) := by
  rw [List.all_eq_true] at h
  have hmem : tNe i j ∈ constraints adj := by
    rw [constraints_eq]
    refine List.mem_append_right _ ?_
    rw [mem_permFlat]
    exact ⟨i, hi, Or.inr (Or.inr ⟨j, hj, hne, rfl⟩)⟩
  have hc := h _ hmem
  rwa [evalForm_tNe] at hc

/-! ### Claim C1: the coverage law -/

/-- C1: on any input whose constraint set the solver satisfies, the decoded
vertex sequence traverses every edge occurrence exactly once: each occurrence
is pinned to the adjacent slot pair `(t e, t e + 1)` in one of its two
directions, distinct occurrences get distinct slots, and every adjacent slot
pair of the path carries some occurrence. -/
theorem coverage_law (adj : Mat) (P t : ℤ → ℤ)
    (h : (constraints adj).all (evalForm P t) = true) : Covers adj P t := by
  have hinj : ∀ e f : ℕ, e < kCount adj → f < kCount adj →
      t (e : ℤ) = t (f : ℤ) → e = f := by
    intro e f he hf heq
    by_contra hne
    exact sat_tNe h he hf hne heq
  refine ⟨?_, hinj, ?_⟩
  · intro e he
    exact ⟨sat_tGe h he, sat_tLe h he, sat_edge h he⟩
  · intro s hs0 hs1
    have hk : 0 < kCount adj := by omega
    have hF : ∀ e : Fin (kCount adj), (t ((e : ℕ) : ℤ)).toNat < kCount adj := by
      intro e
      have h1 := sat_tGe h e.isLt
      have h2 := sat_tLe h e.isLt
      omega
    set F : Fin (kCount adj) → Fin (kCount adj) :=
      fun e => ⟨(t ((e : ℕ) : ℤ)).toNat, hF e⟩ with hFdef
    have hFinj : Function.Injective F := by
      intro e f hef
      have h1 := sat_tGe h e.isLt
      have h2 := sat_tGe h f.isLt
      have h3 : (t ((e : ℕ) : ℤ)).toNat = (t ((f : ℕ) : ℤ)).toNat := by
        simpa [hFdef] using congrArg Fin.val hef
      have h4 : t ((e : ℕ) : ℤ) = t ((f : ℕ) : ℤ) := by omega
      exact Fin.ext (hinj e f e.isLt f.isLt h4)
    have hFsurj : Function.Surjective F := Finite.injective_iff_surjective.mp hFinj
    obtain ⟨e, he⟩ := hFsurj ⟨s.toNat, by omega⟩
    refine ⟨(e : ℕ), e.isLt, ?_⟩
    have h1 := sat_tGe h e.isLt
    have h2 : (t ((e : ℕ) : ℤ)).toNat = s.toNat := by
      simpa [hFdef] using congrArg Fin.val he
    omega

/-- Concrete instantiation of the coverage law on the single-edge graph with
the model `P = id`, `t = 0`. -/
theorem coverage_law_witness :
    Covers [[0, 1], [1, 0]] (fun z => z) (fun _ => 0) :=
  coverage_law [[0, 1], [1, 0]] (fun z => z) (fun _ => 0) (by decide)

/-! ### Claim C7: the length law -/

/-- C7: on any input whose constraint set the solver satisfies, the decoded
path has exactly `k + 1` entries, `k` being the edge count. -/
theorem length_law (adj : Mat) (P t : ℤ → ℤ)
    (_h : (constraints adj).all (evalForm P t) = true) :
    (decode P (kCount adj)).length = kCount adj + 1 := by
  rw [decode, List.length_map, List.length_range]

/-- Concrete instantiation of the length law on the edgeless one-vertex
input. -/
theorem length_law_witness :
    (decode (fun _ => 0) (kCount [[0]])).length = kCount [[0]] + 1 :=
  length_law [[0]] (fun _ => 0) (fun _ => 0) (by decide)

/-! ### Claim C8: the self-loop law -/

theorem selfloop_mem (adj : Mat) (v : ℕ) (hv : v < nVerts adj)
    (hpos : 0 < entry adj v v) : (v, v) ∈ edgeList adj := by
  rw [edgeList, List.mem_flatMap]
  refine ⟨v, by simpa using hv, ?_⟩
  rw [List.mem_flatMap]
  refine ⟨v, ?_, ?_⟩
  · rw [List.mem_range'_1]
    omega
  · rw [List.mem_replicate]
    constructor
    · omega
    · rfl

/-- C8: any self-loop at `v` (positive diagonal entry) forces, in every
satisfying model, two consecutive equal path values `v, v` at the in-bounds
slot assigned to that loop occurrence. -/
theorem selfloop_law (adj : Mat) (v : ℕ) (hv : v < nVerts adj)
    (hpos : 0 < entry adj v v) (P t : ℤ → ℤ)
    (h : (constraints adj).all (evalForm P t) = true) :
    ∃ s : ℤ, 0 ≤ s ∧ s < (kCount adj : ℤ) ∧ P s = (v : ℤ) ∧ P (s + 1) = (v : ℤ) := by
  have hmem := selfloop_mem adj v hv hpos
  rw [List.mem_iff_getElem] at hmem
  obtain ⟨e, helt, hget⟩ := hmem
  have he : e < kCount adj := by rwa [kCount_eq]
  have hgetD : (edgeList adj).getD e (0, 0) = (v, v) := by
    rw [List.getD_eq_getElem _ _ helt, hget]
  have hedge := sat_edge h he
  rw [hgetD] at hedge
  have hP : P (t (e : ℤ)) = (v : ℤ) ∧ P (t (e : ℤ) + 1) = (v : ℤ) := by
    rcases hedge with hc | hc <;> exact hc
  have h1 := sat_tGe h he
  have h2 := sat_tLe h he
  exact ⟨t (e : ℤ), h1, by omega, hP.1, hP.2⟩

/-- Concrete instantiation of the self-loop law on the one-loop input with the
constant-zero model. -/
theorem selfloop_law_witness :
    ∃ s : ℤ, 0 ≤ s ∧ s < (kCount [[1]] : ℤ) ∧
      (0 : ℤ) = ((0 : ℕ) : ℤ) ∧ (0 : ℤ) = ((0 : ℕ) : ℤ) :=
  selfloop_law [[1]] 0 (by decide) (by decide) (fun _ => 0) (fun _ => 0) (by decide)

/-! ### Claim C3: the exact constraint shapes -/

/-- C3: the asserted set is exactly: per edge occurrence `e` with endpoints
`(u, v)` the single two-way disjunction over the slot pair
`(t e, t e + 1)`, and for the bijectivity of `t` the bounds
`t(i) ≤ k - 1`, `t(i) ≥ 0` for every edge index and `t(i) ≠ t(j)` for every
ordered pair of distinct edge indices; nothing else is asserted. -/
theorem encoder_constraints (adj : Mat) :
    constraints adj = emitFrom 0 (edgeList adj) ++ permFlat (kCount adj) ∧
    (∀ f : Formula, f ∈ constraints adj ↔
      ((∃ e, e < kCount adj ∧
          f = edgeFormula e ((edgeList adj).getD e (0, 0)).1 ((edgeList adj).getD e (0, 0)).2) ∨
       (∃ i, i < kCount adj ∧ (f = tLe i (kCount adj) ∨ f = tGe i)) ∨
       (∃ i j, i < kCount adj ∧ j < kCount adj ∧ i ≠ j ∧ f = tNe i j))) := by
  refine ⟨constraints_eq adj, ?_⟩
  intro f
  rw [constraints_eq, List.mem_append, mem_emitFrom, mem_permFlat, kCount_eq]
  constructor
  · rintro (⟨s, hs, rfl⟩ | ⟨i, hi, (rfl | rfl | ⟨j, hj, hne, rfl⟩)⟩)
    · exact Or.inl ⟨s, hs, by simp⟩
    · exact Or.inr (Or.inl ⟨i, hi, Or.inl rfl⟩)
    · exact Or.inr (Or.inl ⟨i, hi, Or.inr rfl⟩)
    · exact Or.inr (Or.inr ⟨i, j, hi, hj, hne, rfl⟩)
  · rintro (⟨e, he, rfl⟩ | ⟨i, hi, (rfl | rfl)⟩ | ⟨i, j, hi, hj, hne, rfl⟩)
    · exact Or.inl ⟨e, he, by simp⟩
    · exact Or.inr ⟨i, hi, Or.inl rfl⟩
    · exact Or.inr ⟨i, hi, Or.inr (Or.inl rfl)⟩
    · exact Or.inr ⟨i, hi, Or.inr (Or.inr ⟨j, hj, hne, rfl⟩)⟩

/-! ### Claim C4: the graph loader -/

theorem flatMap_congr {α β : Type} {l : List α} {f g : α → List β}
    (h : ∀ x ∈ l, f x = g x) : l.flatMap f = l.flatMap g := by
  induction l with
  | nil => rfl
  | cons x rest ih =>
      rw [List.flatMap_cons, List.flatMap_cons, h x (by simp), ih]
      intro y hy
      exact h y (by simp [hy])

theorem list_sum_range (f : ℕ → ℕ) (n : ℕ) :
    ((List.range n).map f).sum = ∑ i in Finset.range n, f i := by
  induction n with
  | zero => rfl
  | succ n ih => rw [List.range_succ, List.map_append, List.sum_append,
      Finset.sum_range_succ, ih]; simp

/-- C4: the loader emits the upper-triangle occurrences in scan order (the
loop state equals the flat occurrence list with its running index), and for a
non-negative input the final edge counter `k` is the sum of the
upper-triangle entries, diagonal entries counted at face value. -/
theorem loader_law (adj : Mat) (hnn : Nonneg adj) :
    (edgeLoop adj).1 = emitFrom 0 (edgeList adj) ∧
    kCount adj = (edgeList adj).length ∧
    ((kCount adj : ℤ) =
      ∑ i in Finset.range (nVerts adj), ∑ j in Finset.Ico i (nVerts adj), entry adj i j) := by
  refine ⟨by rw [edgeLoop_spec], kCount_eq adj, ?_⟩
  rw [kCount_eq, edgeList, List.length_flatMap]
  have hinner : ∀ i, i < nVerts adj →
      (((List.range' i (nVerts adj - i)).flatMap
          (fun j => List.replicate (entry adj i j).toNat (i, j))).length : ℤ)
        = ∑ j in Finset.Ico i (nVerts adj), entry adj i j := by
    intro i hi
    rw [List.length_flatMap, List.range'_eq_map_range, List.map_map]
    have hlen : ((List.range (nVerts adj - i)).map
        (fun g => ((List.replicate (entry adj i (i + g)).toNat (i, i + g)).length))).sum
        = ∑ g in Finset.range (nVerts adj - i), (entry adj i (i + g)).toNat := by
      rw [list_sum_range (fun g => (List.replicate (entry adj i (i + g)).toNat (i, i + g)).length)]
      exact Finset.sum_congr rfl (fun g _ => List.length_replicate _ _)
    have hcomp : (List.length ∘ fun j => List.replicate (entry adj i j).toNat (i, j)) ∘
        (fun x => i + x) = fun g => (List.replicate (entry adj i (i + g)).toNat (i, i + g)).length := rfl
    rw [hcomp, hlen, Finset.sum_Ico_eq_sum_range]
    push_cast
    refine Finset.sum_congr rfl ?_
    intro g hg
    rw [Finset.mem_range] at hg
    exact Int.toNat_of_nonneg (hnn i hi (i + g) (by omega))
  rw [list_sum_range]
  push_cast
  refine Finset.sum_congr rfl ?_
  intro i hi
  rw [Finset.mem_range] at hi
  exact hinner i hi

/-- Concrete instantiation of the loader law. -/
theorem loader_law_witness :
    (edgeLoop [[1, 2], [2, 0]]).1 = emitFrom 0 (edgeList [[1, 2], [2, 0]]) ∧
    kCount [[1, 2], [2, 0]] = (edgeList [[1, 2], [2, 0]]).length ∧
    ((kCount [[1, 2], [2, 0]] : ℤ) =
      ∑ i in Finset.range (nVerts [[1, 2], [2, 0]]),
        ∑ j in Finset.Ico i (nVerts [[1, 2], [2, 0]]), entry [[1, 2], [2, 0]] i j) :=
  loader_law [[1, 2], [2, 0]] (by decide)

/-! ### Claim C5: input validation -/

/-- C5 fails as stated: on an asymmetric (hence malformed) input the program
performs no rejection; the encoder goes on to build a non-empty constraint
set. -/
theorem invalid_input_counterexample : constraints [[0, 1], [0, 0]] ≠ [] := by decide

/-- C5 amended: the script has no validation and no InvalidGraph error
exists; a malformed square matrix is not rejected but processed, with
constraints built from its upper triangle: an asymmetric matrix yields the
same non-empty constraint set as its symmetrized form, and a negative entry
contributes no edge occurrences.  (Non-square inputs are out of scope of the
amendment: on a tall one the script itself dies of an uncaught `IndexError`
at `adj[i,j]`, an error path this embedding does not model.) -/
theorem invalid_input_amended :
    constraints [[0, 1], [0, 0]] = constraints [[0, 1], [1, 0]] ∧
    constraints [[0, 1], [0, 0]] ≠ [] ∧
    edgeList [[-1]] = [] := ⟨by decide, by decide, by decide⟩

/-! ### Claim C6: solver verdict handling -/

/-- C6 fails as stated: on an `unknown` verdict the program surfaces no
outcome at all — the unconditional `s.model()` request aborts the run — so
`unknown` is not reported as a distinct indeterminate outcome. -/
theorem unknown_counterexample :
    ¬ ∃ o : CodeOutcome, run [[0]] Verdict.unknown = some o := by
  rintro ⟨o, h⟩
  simp [run] at h

/-- C6 amended: the single branch at line 66 distinguishes only `unsat` from
everything else: `unsat` exits, `sat` prints the decoded path, and `unknown`
aborts with no outcome; no indeterminate report and no invalid-input outcome
exist. -/
theorem run_outcomes :
    (∀ adj : Mat, run adj Verdict.unsat = some CodeOutcome.exited) ∧
    (∀ (adj : Mat) (P t : ℤ → ℤ),
        run adj (Verdict.sat P t) = some (CodeOutcome.printedPath (decode P (kCount adj)))) ∧
    (∀ adj : Mat, run adj Verdict.unknown = none) :=
  ⟨fun _ => rfl, fun _ _ _ => rfl, fun _ => rfl⟩

/-! ### Claim C9: scenario A -/

/-- C9 fails as stated: the constraint set of `[[0]]` is empty, so a model
sending every argument to `7` satisfies it, and that model decodes to `[7]`,
not to `[0]`: the single path entry is not pinned by any constraint. -/
theorem scenarioA_counterexample :
    (constraints [[0]]).all (evalForm (fun _ => 7) (fun _ => 0)) = true ∧
    decode (fun _ => 7) (kCount [[0]]) = [7] ∧ ([7] : List ℤ) ≠ [0] :=
  ⟨by decide, by decide, by decide⟩

/-- C9 amended: on the one-vertex edgeless input the edge count is `0`, the
(empty) constraint set is satisfiable, and every model decodes to the
one-entry path `[P 0]`, whose value the constraints leave free. -/
theorem scenarioA_amended :
    kCount [[0]] = 0 ∧ Satisfiable [[0]] ∧
    ∀ P : ℤ → ℤ, decode P (kCount [[0]]) = [P 0] :=
  ⟨rfl, ⟨fun _ => 0, fun _ => 0, by decide⟩, fun _ => rfl⟩

/-! ### Claim C10: only the upper triangle matters -/

/-- C10: two inputs of the same dimension that agree on the upper triangle
yield identical constraint sets, identical edge counts, the same
satisfiability, the same decoded path, and the same run outcome for every
verdict: the strictly-lower-triangle entries are never read. -/
theorem upper_triangle_only (a b : Mat) (hn : nVerts a = nVerts b)
    (h : ∀ i j : ℕ, i ≤ j → entry a i j = entry b i j) :
    constraints a = constraints b ∧ kCount a = kCount b ∧
    (Satisfiable a ↔ Satisfiable b) ∧
    (∀ P : ℤ → ℤ, decode P (kCount a) = decode P (kCount b)) ∧
    (∀ r : Verdict, run a r = run b r) := by
  have hel : edgeList a = edgeList b := by
    rw [edgeList, edgeList, ← hn]
    refine flatMap_congr ?_
    intro i _hi
    refine flatMap_congr ?_
    intro j hj
    rw [List.mem_range'_1] at hj
    rw [h i j hj.1]
  have hk : kCount a = kCount b := by rw [kCount_eq, kCount_eq, hel]
  have hc : constraints a = constraints b := by
    rw [constraints_eq, constraints_eq, hel, hk]
  refine ⟨hc, hk, by rw [Satisfiable, Satisfiable, hc], fun P => by rw [hk], ?_⟩
  intro r
  cases r with
  | sat P t => simp [run, hk]
  | unsat => rfl
  | unknown => rfl

/-- Concrete instantiation: two matrices differing only strictly below the
diagonal are processed identically. -/
theorem upper_triangle_only_witness :
    constraints [[0, 1], [1, 0]] = constraints [[0, 1], [7, 0]] ∧
    kCount [[0, 1], [1, 0]] = kCount [[0, 1], [7, 0]] ∧
    (Satisfiable [[0, 1], [1, 0]] ↔ Satisfiable [[0, 1], [7, 0]]) ∧
    (∀ P : ℤ → ℤ, decode P (kCount [[0, 1], [1, 0]]) = decode P (kCount [[0, 1], [7, 0]])) ∧
    (∀ r : Verdict, run [[0, 1], [1, 0]] r = run [[0, 1], [7, 0]] r) := by
  refine upper_triangle_only [[0, 1], [1, 0]] [[0, 1], [7, 0]] rfl ?_
  intro i j hij
  rcases i with _ | i
  · rfl
  · rcases i with _ | i
    · rcases j with _ | j
      · exact absurd hij (by decide)
      · rfl
    · rfl

/-! ### Walks: basic lemmas -/

theorem chained_nil : Chained [] := List.chain'_nil

theorem chained_singleton (e : ℕ × ℕ) : Chained [e] := List.chain'_singleton e

theorem firstV_cons (e : ℕ × ℕ) (q : List (ℕ × ℕ)) : firstV (e :: q) = e.1 := rfl

theorem getLastD_irrel :
    ∀ (q : List (ℕ × ℕ)), q ≠ [] → ∀ d1 d2 : ℕ × ℕ, q.getLastD d1 = q.getLastD d2
| [], h, _, _ => absurd rfl h
| e :: q, _, d1, d2 => by rw [List.getLastD_cons, List.getLastD_cons]

theorem lastV_cons (e : ℕ × ℕ) {q : List (ℕ × ℕ)} (h : q ≠ []) :
    lastV (e :: q) = lastV q := by
  rw [lastV, lastV, List.getLastD_cons]
  exact congrArg Prod.snd (getLastD_irrel q h e (0, 0))

theorem lastV_single (e : ℕ × ℕ) : lastV [e] = e.2 := rfl

theorem lastV_append (q1 : List (ℕ × ℕ)) {q2 : List (ℕ × ℕ)} (h : q2 ≠ []) :
    lastV (q1 ++ q2) = lastV q2 := by
  rw [lastV, lastV, List.getLastD_eq_getLast?, List.getLastD_eq_getLast?,
    List.getLast?_append_of_ne_nil q1 h]

theorem firstV_append {q1 : List (ℕ × ℕ)} (q2 : List (ℕ × ℕ)) (h : q1 ≠ []) :
    firstV (q1 ++ q2) = firstV q1 := by
  cases q1 with
  | nil => exact absurd rfl h
  | cons e q => rfl

theorem chained_append {q1 q2 : List (ℕ × ℕ)} (h1 : Chained q1) (h2 : Chained q2)
    (hlink : q1 ≠ [] → q2 ≠ [] → lastV q1 = firstV q2) : Chained (q1 ++ q2) := by
  rw [Chained, List.chain'_append]
  refine ⟨h1, h2, ?_⟩
  intro x hx y hy
  have hq1 : q1 ≠ [] := by rintro rfl; simp at hx
  have hq2 : q2 ≠ [] := by rintro rfl; simp at hy
  have hx2 : x.2 = lastV q1 := by
    rw [lastV, List.getLastD_eq_getLast?, Option.mem_def.mp hx]
    rfl
  have hy1 : y.1 = firstV q2 := by
    rw [firstV, List.headD_eq_head?_getD, Option.mem_def.mp hy]
    rfl
  rw [hx2, hy1, hlink hq1 hq2]

theorem chained_of_append_left {q1 q2 : List (ℕ × ℕ)} (h : Chained (q1 ++ q2)) :
    Chained q1 := (List.chain'_append.mp h).1

theorem chained_of_append_right {q1 q2 : List (ℕ × ℕ)} (h : Chained (q1 ++ q2)) :
    Chained q2 := (List.chain'_append.mp h).2.1

theorem link_of_append {q1 q2 : List (ℕ × ℕ)} (h : Chained (q1 ++ q2))
    (h1 : q1 ≠ []) (h2 : q2 ≠ []) : lastV q1 = firstV q2 := by
  have h3 := (List.chain'_append.mp h).2.2
  have hx := List.getLast?_eq_getLast q1 h1
  have hy := List.head?_eq_head h2
  have := h3 (q1.getLast h1) (by rw [hx]; rfl) (q2.head h2) (by rw [hy]; rfl)
  rw [lastV, firstV, List.getLastD_eq_getLast?, List.headD_eq_head?_getD, hx, hy]
  exact this

theorem chained_cons {e : ℕ × ℕ} {q : List (ℕ × ℕ)} (hq : Chained q)
    (hlink : q ≠ [] → e.2 = firstV q) : Chained (e :: q) := by
  cases q with
  | nil => exact chained_singleton e
  | cons f rest => exact List.chain'_cons.mpr ⟨hlink (by simp), hq⟩

theorem chained_cons_split {e : ℕ × ℕ} {q : List (ℕ × ℕ)} (h : Chained (e :: q)) :
    Chained q ∧ (q ≠ [] → e.2 = firstV q) := by
  cases q with
  | nil => exact ⟨chained_nil, by simp⟩
  | cons f rest =>
      have h2 := List.chain'_cons.mp h
      exact ⟨h2.2, fun _ => h2.1⟩

theorem steps_nil : steps [] = 0 := rfl

theorem steps_cons (e : ℕ × ℕ) (q : List (ℕ × ℕ)) :
    steps (e :: q) = nrm e ::ₘ steps q := rfl

theorem steps_append (q1 q2 : List (ℕ × ℕ)) :
    steps (q1 ++ q2) = steps q1 + steps q2 := by
  rw [steps, steps, steps, List.map_append]
  rfl

theorem card_steps (q : List (ℕ × ℕ)) : (steps q).card = q.length := by
  rw [steps, Multiset.coe_card, List.length_map]

/-! ### Incidence, degree, adjacency on edge multisets -/

theorem inc_nrm (v : ℕ) (e : ℕ × ℕ) : inc v (nrm e) = inc v e := by
  rcases e with ⟨a, b⟩
  rcases le_total a b with h | h
  · rw [nrm]
    simp only [min_eq_left h, max_eq_right h]
  · rw [nrm, inc, inc]
    simp only [min_eq_right h, max_eq_left h]
    exact add_comm _ _

theorem nrm_of_le {e : ℕ × ℕ} (h : e.1 ≤ e.2) : nrm e = e := by
  rcases e with ⟨a, b⟩
  rw [nrm]
  simp only [min_eq_left h, max_eq_right h]

theorem nrm_cases {a b u v : ℕ} (h : nrm (a, b) = (u, v)) :
    (a = u ∧ b = v) ∨ (a = v ∧ b = u) := by
  rw [nrm] at h
  have h1 : min a b = u := congrArg Prod.fst h
  have h2 : max a b = v := congrArg Prod.snd h
  rcases le_total a b with hab | hab
  · rw [min_eq_left hab] at h1
    rw [max_eq_right hab] at h2
    exact Or.inl ⟨h1, h2⟩
  · rw [min_eq_right hab] at h1
    rw [max_eq_left hab] at h2
    exact Or.inr ⟨h2, h1⟩

theorem nrm_orient {e : ℕ × ℕ} {c d : ℕ} (hle : e.1 ≤ e.2)
    (h : (e.1 = c ∧ e.2 = d) ∨ (e.1 = d ∧ e.2 = c)) : nrm (c, d) = e := by
  rcases e with ⟨a, b⟩
  simp only at hle h
  rcases h with ⟨h1, h2⟩ | ⟨h1, h2⟩
  · rw [← h1, ← h2]
    exact nrm_of_le hle
  · rw [← h1, ← h2, nrm]
    simp only [min_eq_right hle, max_eq_left hle]

theorem degM_cons (e : ℕ × ℕ) (E : Multiset (ℕ × ℕ)) (v : ℕ) :
    degM (e ::ₘ E) v = inc v e + degM E v := by
  rw [degM, degM, Multiset.map_cons, Multiset.sum_cons]

theorem degM_add (E F : Multiset (ℕ × ℕ)) (v : ℕ) :
    degM (E + F) v = degM E v + degM F v := by
  rw [degM, degM, degM, Multiset.map_add, Multiset.sum_add]

theorem degM_steps (q : List (ℕ × ℕ)) (v : ℕ) :
    degM (steps q) v = (q.map (inc v)).sum := by
  rw [steps, degM, Multiset.map_coe, Multiset.sum_coe, List.map_map]
  exact congrArg List.sum (List.map_congr_left (fun e _ => inc_nrm v e))

theorem exists_edge_of_degM_pos {E : Multiset (ℕ × ℕ)} {c : ℕ} (h : 0 < degM E c) :
    ∃ e ∈ E, e.1 = c ∨ e.2 = c := by
  induction E using Multiset.induction_on with
  | empty => simp [degM] at h
  | cons e E ih =>
      rw [degM_cons] at h
      by_cases hc : e.1 = c ∨ e.2 = c
      · exact ⟨e, Multiset.mem_cons_self e E, hc⟩
      · push_neg at hc
        have hz : inc c e = 0 := by simp [inc, hc.1, hc.2]
        rw [hz, zero_add] at h
        obtain ⟨f, hf, hor⟩ := ih h
        exact ⟨f, Multiset.mem_cons_of_mem hf, hor⟩

theorem inc_pos {e : ℕ × ℕ} {v : ℕ} (hv : e.1 = v ∨ e.2 = v) : 0 < inc v e := by
  rcases hv with h | h
  · rw [inc, if_pos h]
    exact Nat.lt_of_lt_of_le Nat.zero_lt_one (Nat.le_add_right 1 _)
  · rw [inc, if_pos h]
    exact Nat.succ_pos _

theorem degM_pos_of_mem {E : Multiset (ℕ × ℕ)} {e : ℕ × ℕ} (he : e ∈ E) {v : ℕ}
    (hv : e.1 = v ∨ e.2 = v) : 0 < degM E v := by
  rw [← Multiset.cons_erase he, degM_cons]
  have h1 := inc_pos hv
  omega

theorem degM_le_of_le {s E : Multiset (ℕ × ℕ)} (h : s ≤ E) (v : ℕ) :
    degM s v ≤ degM E v := by
  obtain ⟨u, rfl⟩ := Multiset.le_iff_exists_add.mp h
  rw [degM_add]
  omega

/-! ### Walk parity -/

theorem walk_parity (v : ℕ) :
    ∀ q : List (ℕ × ℕ), Chained q → q ≠ [] →
      (q.map (inc v)).sum % 2 =
        ((if firstV q = v then 1 else 0) + (if lastV q = v then 1 else 0)) % 2
| [], _, h => absurd rfl h
| [e], _, _ => by
    rw [firstV_cons, lastV_single, List.map_cons, List.map_nil, List.sum_cons,
      List.sum_nil, inc]
    omega
| e :: f :: rest, hch, _ => by
    have hsplit := chained_cons_split hch
    have hne : (f :: rest : List (ℕ × ℕ)) ≠ [] := by simp
    have ih := walk_parity v (f :: rest) hsplit.1 hne
    have hlink : e.2 = firstV (f :: rest) := hsplit.2 hne
    have hgoalL : ((e :: f :: rest).map (inc v)).sum
        = inc v e + ((f :: rest).map (inc v)).sum := by
      rw [List.map_cons, List.sum_cons]
    rw [hgoalL, firstV_cons, lastV_cons e hne, inc]
    rw [← hlink] at ih
    omega

/-! ### Reachability -/

theorem adjM_comm {E : Multiset (ℕ × ℕ)} {u v : ℕ} (h : adjM E u v) : adjM E v u :=
  Or.symm h

theorem reachM_symm {E : Multiset (ℕ × ℕ)} {u v : ℕ} (h : ReachM E u v) :
    ReachM E v u :=
  Relation.ReflTransGen.symmetric (fun _a _b hab => adjM_comm hab) h

theorem reachM_mono {E F : Multiset (ℕ × ℕ)} (hEF : E ≤ F) {u v : ℕ}
    (h : ReachM E u v) : ReachM F u v := by
  refine Relation.ReflTransGen.mono ?_ h
  intro a b hab
  rcases hab with h1 | h1
  · exact Or.inl (Multiset.mem_of_le hEF h1)
  · exact Or.inr (Multiset.mem_of_le hEF h1)

theorem first_exit {E : Multiset (ℕ × ℕ)} (p : ℕ → Prop) {x z : ℕ}
    (hr : ReachM E x z) (hx : p x) (hz : ¬ p z) :
    ∃ a b, p a ∧ ¬ p b ∧ adjM E a b := by
  revert hz
  induction hr with
  | refl => exact fun hz => absurd hx hz
  | @tail b c _hxb hbc ih =>
      intro hc
      by_cases hb : p b
      · exact ⟨b, c, hb, hc, hbc⟩
      · exact ih hb

theorem reach_of_chained {E : Multiset (ℕ × ℕ)} :
    ∀ q : List (ℕ × ℕ), Chained q → (∀ st ∈ q, adjM E st.1 st.2) →
      ∀ st ∈ q, ReachM E (firstV q) st.1 ∧ ReachM E (firstV q) st.2
| [], _, _, st, hst => absurd hst (by simp)
| e :: rest, hch, hadj, st, hst => by
    have hsplit := chained_cons_split hch
    have hstep : ReachM E e.1 e.2 :=
      Relation.ReflTransGen.single (hadj e (by simp))
    rcases List.mem_cons.mp hst with rfl | hmem
    · exact ⟨Relation.ReflTransGen.refl, by rw [firstV_cons]; exact hstep⟩
    · have hne : rest ≠ [] := by rintro rfl; simp at hmem
      have hlink := hsplit.2 hne
      have ih := reach_of_chained rest hsplit.1
        (fun s hs => hadj s (List.mem_cons_of_mem e hs)) st hmem
      rw [firstV_cons]
      constructor
      · exact Relation.ReflTransGen.trans hstep (by rw [hlink]; exact ih.1)
      · exact Relation.ReflTransGen.trans hstep (by rw [hlink]; exact ih.2)

/-! ### Greedy walks -/

theorem chainFromTo_nil (a : ℕ) : ChainFromTo a a [] :=
  ⟨chained_nil, fun _ => rfl, fun h => absurd rfl h⟩

theorem chainFromTo_cons {c d x : ℕ} {q : List (ℕ × ℕ)} (hq : ChainFromTo d x q) :
    ChainFromTo c x ((c, d) :: q) := by
  obtain ⟨hch, hnil, hne⟩ := hq
  refine ⟨?_, fun h => absurd h (List.cons_ne_nil _ _), fun _ => ⟨rfl, ?_⟩⟩
  · refine chained_cons hch ?_
    intro h
    exact ((hne h).1).symm
  · by_cases hq0 : q = []
    · subst hq0
      rw [lastV_single]
      exact hnil rfl
    · rw [lastV_cons _ hq0]
      exact (hne hq0).2

theorem pick_at {F : Multiset (ℕ × ℕ)} (hN : Normed F) {c : ℕ}
    (hpos : 0 < degM F c) :
    ∃ e d, e ∈ F ∧ nrm (c, d) = e ∧
      (d = c → inc c e = 2) ∧
      (d ≠ c → inc c e = 1 ∧ inc d e = 1) ∧
      (∀ v, v ≠ c → v ≠ d → inc v e = 0) := by
  obtain ⟨e, heF, hce⟩ := exists_edge_of_degM_pos hpos
  refine ⟨e, if e.1 = c then e.2 else e.1, heF, ?_, ?_, ?_, ?_⟩
  all_goals
    by_cases h1 : e.1 = c
  · exact nrm_orient (hN e heF) (Or.inl ⟨h1, by rw [if_pos h1]⟩)
  · rcases hce with h | h
    · exact absurd h h1
    · exact nrm_orient (hN e heF) (Or.inr ⟨by rw [if_neg h1], h⟩)
  · rw [if_pos h1]
    intro hdc
    rw [inc, h1, hdc]
    simp
  · rw [if_neg h1]
    intro hdc
    rcases hce with h | h
    · exact absurd h h1
    · rw [inc, h, hdc]
      simp
  · rw [if_pos h1]
    intro hdc
    constructor
    · rw [inc, h1, if_pos rfl, if_neg hdc]
    · rw [inc, h1]
      have hcd : ¬ c = e.2 := fun h => hdc h.symm
      rw [if_neg hcd, if_pos rfl]
  · rw [if_neg h1]
    intro hdc
    rcases hce with h | h
    · exact absurd h h1
    · constructor
      · rw [inc, h, if_pos rfl, if_neg hdc]
      · rw [inc, h]
        have hcd : ¬ c = e.1 := fun hh => hdc hh.symm
        rw [if_neg hcd, if_pos rfl]
  · rw [if_pos h1]
    intro v hv1 hv2
    have hh1 : ¬ e.1 = v := by rw [h1]; exact fun hh => hv1 hh.symm
    have hh2 : ¬ e.2 = v := fun hh => hv2 hh.symm
    rw [inc, if_neg hh1, if_neg hh2]
  · rw [if_neg h1]
    intro v hv1 hv2
    rcases hce with h | h
    · exact absurd h h1
    · have hh1 : ¬ e.1 = v := fun hh => hv2 hh.symm
      have hh2 : ¬ e.2 = v := by rw [h]; exact fun hh => hv1 hh.symm
      rw [inc, if_neg hh1, if_neg hh2]

theorem normed_erase {F : Multiset (ℕ × ℕ)} (hN : Normed F) (e : ℕ × ℕ) :
    Normed (F.erase e) :=
  fun f hf => hN f (Multiset.mem_of_mem_erase hf)

theorem walk_to_base :
    ∀ n : ℕ, ∀ F : Multiset (ℕ × ℕ), F.card = n → Normed F → ∀ c x : ℕ,
      (∀ v, v ≠ c → v ≠ x → 2 ∣ degM F v) →
      (c ≠ x → ¬ 2 ∣ degM F c ∧ ¬ 2 ∣ degM F x) →
      ∃ q, ChainFromTo c x q ∧ steps q ≤ F := by
  intro n
  induction n using Nat.strong_induction_on with
  | _ n ih =>
      intro F hcard hN c x hpar hodd
      by_cases hcx : c = x
      · subst hcx
        exact ⟨[], chainFromTo_nil c, by rw [steps_nil]; exact Multiset.zero_le F⟩
      · have hoc := hodd hcx
        have hpos : 0 < degM F c := by
          have h1 := hoc.1
          omega
        obtain ⟨e, d, heF, hnrm, hloop, hnonloop, hzero⟩ := pick_at hN hpos
        have hFdecomp : F = e ::ₘ F.erase e := (Multiset.cons_erase heF).symm
        have hdeg : ∀ v, degM F v = inc v e + degM (F.erase e) v := by
          intro v
          conv_lhs => rw [hFdecomp]
          rw [degM_cons]
        have hcard2 : (F.erase e).card = n - 1 := by
          rw [Multiset.card_erase_of_mem heF, hcard]
          rfl
        have hnpos : 0 < n := by
          rw [← hcard]
          exact Multiset.card_pos_iff_exists_mem.mpr ⟨e, heF⟩
        have hN2 := normed_erase hN e
        have hx_ne_c : x ≠ c := fun h => hcx h.symm
        have step_ih : (∀ v, v ≠ d → v ≠ x → 2 ∣ degM (F.erase e) v) →
            (d ≠ x → ¬ 2 ∣ degM (F.erase e) d ∧ ¬ 2 ∣ degM (F.erase e) x) →
            ∃ q, ChainFromTo c x q ∧ steps q ≤ F := by
          intro hpar2 hodd2
          obtain ⟨q2, hq2, hsub⟩ :=
            ih (n - 1) (by omega) (F.erase e) hcard2 hN2 d x hpar2 hodd2
          refine ⟨(c, d) :: q2, chainFromTo_cons hq2, ?_⟩
          rw [steps_cons, hnrm, hFdecomp]
          exact Multiset.cons_le_cons e hsub
        by_cases hdc : d = c
        · -- the chosen edge is a loop at c
          subst hdc
          refine step_ih ?_ ?_
          · intro v hv1 hv2
            have hz := hzero v hv1 hv1
            have h1 := hpar v hv1 hv2
            have h2 := hdeg v
            omega
          · intro _
            have h2c := hloop rfl
            have hdegd := hdeg d
            have hdegx := hdeg x
            have hzx := hzero x hx_ne_c hx_ne_c
            have h1 := hoc.1
            have h2 := hoc.2
            omega
        · have hinc := hnonloop hdc
          by_cases hdx : d = x
          · -- the edge closes back at the base x
            subst hdx
            refine step_ih ?_ ?_
            · intro v hv1 hv2
              have hdegv := hdeg v
              by_cases hvc : v = c
              · subst hvc
                have h1 := hoc.1
                omega
              · have hz := hzero v hvc hv1
                have h1 := hpar v hvc hv1
                omega
            · intro h
              exact absurd rfl h
          · -- ordinary step to a new vertex d
            refine step_ih ?_ ?_
            · intro v hv1 hv2
              have hdegv := hdeg v
              by_cases hvc : v = c
              · subst hvc
                have h1 := hoc.1
                omega
              · have hz := hzero v hvc hv1
                have h1 := hpar v hvc hv2
                omega
            · intro _
              have hdegd := hdeg d
              have hdegx := hdeg x
              have hzx := hzero x hx_ne_c (fun h => hdx h.symm)
              have hevend := hpar d hdc hdx
              have h2 := hoc.2
              omega

theorem closed_walk_from {F : Multiset (ℕ × ℕ)} (hN : Normed F)
    (heven : ∀ v, 2 ∣ degM F v) {x : ℕ} (hpos : 0 < degM F x) :
    ∃ q, q ≠ [] ∧ ChainFromTo x x q ∧ steps q ≤ F := by
  obtain ⟨e, d, heF, hnrm, hloop, hnonloop, hzero⟩ := pick_at hN hpos
  have hFdecomp : F = e ::ₘ F.erase e := (Multiset.cons_erase heF).symm
  have hdeg : ∀ v, degM F v = inc v e + degM (F.erase e) v := by
    intro v
    conv_lhs => rw [hFdecomp]
    rw [degM_cons]
  have hN2 := normed_erase hN e
  have hpar2 : ∀ v, v ≠ d → v ≠ x → 2 ∣ degM (F.erase e) v := by
    intro v hv1 hv2
    have hz := hzero v hv2 hv1
    have h1 := heven v
    have h2 := hdeg v
    omega
  have hodd2 : d ≠ x → ¬ 2 ∣ degM (F.erase e) d ∧ ¬ 2 ∣ degM (F.erase e) x := by
    intro hdx
    have hinc := hnonloop hdx
    have hdegd := hdeg d
    have hdegx := hdeg x
    have h1 := heven d
    have h2 := heven x
    omega
  obtain ⟨q2, hq2, hsub⟩ :=
    walk_to_base (F.erase e).card (F.erase e) rfl hN2 d x hpar2 hodd2
  refine ⟨(x, d) :: q2, List.cons_ne_nil _ _, chainFromTo_cons hq2, ?_⟩
  rw [steps_cons, hnrm, hFdecomp]
  exact Multiset.cons_le_cons e hsub

/-! ### Splicing closed walks -/

theorem splice_front {x : ℕ} {q c1 : List (ℕ × ℕ)}
    (hq : ChainFromTo x x q) (hc1 : ChainFromTo x x c1) :
    ChainFromTo x x (c1 ++ q) ∧ steps (c1 ++ q) = steps c1 + steps q := by
  obtain ⟨hch, hnil, hne⟩ := hq
  obtain ⟨hch1, hnil1, hne1⟩ := hc1
  refine ⟨⟨?_, fun _ => rfl, ?_⟩, steps_append c1 q⟩
  · refine chained_append hch1 hch ?_
    intro h1 h2
    rw [(hne1 h1).2, (hne h2).1]
  · intro happ
    by_cases hc : c1 = []
    · subst hc
      rw [List.nil_append] at happ ⊢
      exact hne happ
    · constructor
      · rw [firstV_append q hc]
        exact (hne1 hc).1
      · by_cases hq0 : q = []
        · subst hq0
          rw [List.append_nil]
          exact (hne1 hc).2
        · rw [lastV_append c1 hq0]
          exact (hne hq0).2

theorem splice_mid {x w : ℕ} {s r c1 : List (ℕ × ℕ)} {st : ℕ × ℕ}
    (hq : ChainFromTo x x (s ++ st :: r)) (hstw : st.1 = w)
    (hc1 : ChainFromTo w w c1) :
    ChainFromTo x x (s ++ (c1 ++ st :: r)) ∧
      steps (s ++ (c1 ++ st :: r)) = steps c1 + steps (s ++ st :: r) := by
  obtain ⟨hch, _hnil, hne⟩ := hq
  obtain ⟨hch1, _hnil1, hne1⟩ := hc1
  have hqne : (s ++ st :: r : List (ℕ × ℕ)) ≠ [] := by simp
  have hends := hne hqne
  have hsr : firstV (st :: r) = w := by rw [firstV_cons, hstw]
  have hslink : s ≠ [] → lastV s = w := by
    intro hs
    rw [link_of_append hch hs (List.cons_ne_nil _ _), hsr]
  have hchsub : Chained (st :: r) := chained_of_append_right hch
  have hch2 : Chained (c1 ++ st :: r) := by
    refine chained_append hch1 hchsub ?_
    intro h1 _
    rw [(hne1 h1).2, hsr]
  have hfirst2 : firstV (c1 ++ st :: r) = w := by
    by_cases hc : c1 = []
    · subst hc
      rw [List.nil_append, hsr]
    · rw [firstV_append _ hc]
      exact (hne1 hc).1
  refine ⟨⟨?_, fun _ => rfl, ?_⟩, ?_⟩
  · refine chained_append (chained_of_append_left hch) hch2 ?_
    intro hs _
    rw [hslink hs, hfirst2]
  · intro _
    constructor
    · by_cases hs : s = []
      · subst hs
        rw [List.nil_append] at hends ⊢
        rw [hfirst2, ← hsr]
        exact hends.1
      · rw [firstV_append _ hs]
        rw [firstV_append _ hs] at hends
        exact hends.1
    · rw [lastV_append s (by simp : (c1 ++ st :: r : List (ℕ × ℕ)) ≠ []),
        lastV_append c1 (List.cons_ne_nil _ _)]
      rw [lastV_append s (List.cons_ne_nil _ _)] at hends
      exact hends.2
  · rw [steps_append, steps_append, steps_append]
    rw [add_left_comm]

/-! ### Vertices on a walk -/

theorem onWalk_snd :
    ∀ q : List (ℕ × ℕ), Chained q → ∀ st ∈ q,
      (∃ st2 ∈ q, st2.1 = st.2) ∨ st.2 = lastV q
| [], _, _, hmem => absurd hmem (by simp)
| e :: rest, hch, st, hmem => by
    have hsplit := chained_cons_split hch
    rcases List.mem_cons.mp hmem with rfl | hmem2
    · cases rest with
      | nil =>
          right
          rw [lastV_single]
      | cons f rest2 =>
          left
          exact ⟨f, by simp, (hsplit.2 (by simp)).symm⟩
    · have hrest_ne : rest ≠ [] := by rintro rfl; simp at hmem2
      rcases onWalk_snd rest hsplit.1 st hmem2 with ⟨st2, h2, h3⟩ | h2
      · exact Or.inl ⟨st2, List.mem_cons_of_mem e h2, h3⟩
      · right
        rw [lastV_cons e hrest_ne]
        exact h2

theorem mem_steps_endpoints {q : List (ℕ × ℕ)} {f : ℕ × ℕ} (hf : f ∈ steps q) :
    ∃ st ∈ q, (st.1 = f.1 ∧ st.2 = f.2) ∨ (st.1 = f.2 ∧ st.2 = f.1) := by
  rw [steps, Multiset.mem_coe, List.mem_map] at hf
  obtain ⟨st, hst, hnrm⟩ := hf
  rcases st with ⟨a, b⟩
  rcases f with ⟨u, v⟩
  exact ⟨(a, b), hst, nrm_cases hnrm⟩

/-! ### The Euler circuit -/

theorem extend_circuit {E : Multiset (ℕ × ℕ)} (hN : Normed E) {x : ℕ}
    (hreach : ∀ e ∈ E, ReachM E x e.1) (heven : ∀ v, 2 ∣ degM E v) :
    ∀ m : ℕ, ∀ q : List (ℕ × ℕ), ChainFromTo x x q → steps q ≤ E →
      (E - steps q).card = m → ∃ qq, ChainFromTo x x qq ∧ steps qq = E := by
  intro m
  induction m using Nat.strong_induction_on with
  | _ m ih =>
      intro q hq hsub hm
      by_cases hR : E - steps q = 0
      · exact ⟨q, hq, le_antisymm hsub (tsub_eq_zero_iff_le.mp hR)⟩
      · have hRsub : E - steps q ≤ E := tsub_le_self
        have hEdecomp : steps q + (E - steps q) = E := add_tsub_cancel_of_le hsub
        have hstepsdeg : ∀ v, 2 ∣ degM (steps q) v := by
          intro v
          by_cases hq0 : q = []
          · subst hq0
            rw [steps_nil]
            exact ⟨0, rfl⟩
          · have hends := hq.2.2 hq0
            have hpar := walk_parity v q hq.1 hq0
            rw [degM_steps]
            rw [hends.1, hends.2] at hpar
            by_cases hxv : x = v
            · rw [if_pos hxv] at hpar
              omega
            · rw [if_neg hxv] at hpar
              omega
        have hReven : ∀ v, 2 ∣ degM (E - steps q) v := by
          intro v
          have h1 : degM (steps q) v + degM (E - steps q) v = degM E v := by
            rw [← degM_add, hEdecomp]
          have h2 := heven v
          have h3 := hstepsdeg v
          omega
        obtain ⟨f, hfR⟩ := Multiset.exists_mem_of_ne_zero hR
        have hfE : f ∈ E := Multiset.mem_of_le hRsub hfR
        have hw : ∃ w, onWalk q x w ∧ 0 < degM (E - steps q) w := by
          by_cases hf1 : onWalk q x f.1
          · exact ⟨f.1, hf1, degM_pos_of_mem hfR (Or.inl rfl)⟩
          · obtain ⟨a, b, ha, hb, hab⟩ :=
              first_exit (onWalk q x) (hreach f hfE) (Or.inl rfl) hf1
            have hedge : ∃ g ∈ E, (g.1 = a ∨ g.2 = a) ∧ (g.1 = b ∨ g.2 = b) := by
              rcases hab with hmem | hmem
              · exact ⟨(a, b), hmem, Or.inl rfl, Or.inr rfl⟩
              · exact ⟨(b, a), hmem, Or.inr rfl, Or.inl rfl⟩
            obtain ⟨g, hgE, hga, hgb⟩ := hedge
            have hnot : g ∉ steps q := by
              intro hmem2
              obtain ⟨st, hst, hor⟩ := mem_steps_endpoints hmem2
              rcases hgb with h1 | h1 <;> rcases hor with ⟨h2, h3⟩ | ⟨h2, h3⟩
              · exact hb (Or.inr ⟨st, hst, Or.inl (by rw [h2, h1])⟩)
              · exact hb (Or.inr ⟨st, hst, Or.inr (by rw [h3, h1])⟩)
              · exact hb (Or.inr ⟨st, hst, Or.inr (by rw [h3, h1])⟩)
              · exact hb (Or.inr ⟨st, hst, Or.inl (by rw [h2, h1])⟩)
            have hinR : g ∈ E - steps q := by
              rw [← Multiset.count_pos, Multiset.count_sub]
              have hc1 : 0 < Multiset.count g E := Multiset.count_pos.mpr hgE
              have hc2 : Multiset.count g (steps q) = 0 :=
                Multiset.count_eq_zero.mpr hnot
              omega
            exact ⟨a, ha, degM_pos_of_mem hinR hga⟩
        obtain ⟨w, hwOn, hwPos⟩ := hw
        have hNR : Normed (E - steps q) :=
          fun e he => hN e (Multiset.mem_of_le hRsub he)
        obtain ⟨c1, hc1ne, hc1, hc1sub⟩ := closed_walk_from hNR hReven hwPos
        have hcases : (∃ st ∈ q, st.1 = w) ∨ w = x := by
          rcases hwOn with h | ⟨st, hst, h1 | h2⟩
          · exact Or.inr h
          · exact Or.inl ⟨st, hst, h1⟩
          · rcases onWalk_snd q hq.1 st hst with ⟨st2, h3, h4⟩ | h3
            · exact Or.inl ⟨st2, h3, by rw [h4, h2]⟩
            · right
              have hq0 : q ≠ [] := by rintro rfl; simp at hst
              have hends := hq.2.2 hq0
              rw [← h2, h3, hends.2]
        have hc1card : 0 < (steps c1).card := by
          rw [card_steps]
          exact List.length_pos.mpr hc1ne
        have hcardE : (steps q).card ≤ E.card := Multiset.card_le_card hsub
        have hcardsub : (E - steps q).card = E.card - (steps q).card :=
          Multiset.card_sub hsub
        rcases hcases with ⟨st, hst, hstw⟩ | rfl
        · obtain ⟨s, r, rfl⟩ := List.append_of_mem hst
          have hsp := splice_mid hq hstw hc1
          have hsub2 : steps (s ++ (c1 ++ st :: r)) ≤ E := by
            rw [hsp.2]
            calc steps c1 + steps (s ++ st :: r)
                ≤ (E - steps (s ++ st :: r)) + steps (s ++ st :: r) :=
                  add_le_add_right hc1sub _
              _ = E := by rw [add_comm]; exact hEdecomp
          have hcard2 : (steps (s ++ (c1 ++ st :: r))).card
              = (steps c1).card + (steps (s ++ st :: r)).card := by
            rw [hsp.2, Multiset.card_add]
          have hcardE2 : (steps (s ++ (c1 ++ st :: r))).card ≤ E.card :=
            Multiset.card_le_card hsub2
          have hcardsub2 : (E - steps (s ++ (c1 ++ st :: r))).card
              = E.card - (steps (s ++ (c1 ++ st :: r))).card :=
            Multiset.card_sub hsub2
          exact ih (E - steps (s ++ (c1 ++ st :: r))).card (by omega)
            (s ++ (c1 ++ st :: r)) hsp.1 hsub2 rfl
        · have hsp := splice_front hq hc1
          have hsub2 : steps (c1 ++ q) ≤ E := by
            rw [hsp.2]
            calc steps c1 + steps q
                ≤ (E - steps q) + steps q := add_le_add_right hc1sub _
              _ = E := by rw [add_comm]; exact hEdecomp
          have hcard2 : (steps (c1 ++ q)).card
              = (steps c1).card + (steps q).card := by
            rw [hsp.2, Multiset.card_add]
          have hcardE2 : (steps (c1 ++ q)).card ≤ E.card :=
            Multiset.card_le_card hsub2
          have hcardsub2 : (E - steps (c1 ++ q)).card
              = E.card - (steps (c1 ++ q)).card :=
            Multiset.card_sub hsub2
          exact ih (E - steps (c1 ++ q)).card (by omega) (c1 ++ q) hsp.1 hsub2 rfl

theorem euler_circuit {E : Multiset (ℕ × ℕ)} (hN : Normed E) {x : ℕ}
    (hreach : ∀ e ∈ E, ReachM E x e.1) (heven : ∀ v, 2 ∣ degM E v) :
    ∃ q, ChainFromTo x x q ∧ steps q = E :=
  extend_circuit hN hreach heven (E - steps []).card [] (chainFromTo_nil x)
    (by rw [steps_nil]; exact Multiset.zero_le E) rfl

/-! ### The Euler trail -/

theorem euler_trail_even {E : Multiset (ℕ × ℕ)} (hN : Normed E)
    (hconn : ∀ e1 ∈ E, ∀ e2 ∈ E, ReachM E e1.1 e2.1)
    (heven : ∀ v, 2 ∣ degM E v) :
    ∃ q, Chained q ∧ steps q = E := by
  by_cases hE : E = 0
  · subst hE
    exact ⟨[], chained_nil, steps_nil⟩
  · obtain ⟨e0, he0⟩ := Multiset.exists_mem_of_ne_zero hE
    obtain ⟨q, hq, hsteps⟩ :=
      euler_circuit hN (fun e he => hconn e0 he0 e he) heven
    exact ⟨q, hq.1, hsteps⟩

theorem euler_trail_two_odd {E : Multiset (ℕ × ℕ)} (hN : Normed E)
    (hconn : ∀ e1 ∈ E, ∀ e2 ∈ E, ReachM E e1.1 e2.1)
    {x y : ℕ} (hxy : x ≠ y)
    (hodd : ∀ v, ¬ 2 ∣ degM E v ↔ (v = x ∨ v = y)) :
    ∃ q, Chained q ∧ steps q = E := by
  have hxodd : ¬ 2 ∣ degM E x := (hodd x).mpr (Or.inl rfl)
  have hxpos : 0 < degM E x := by omega
  obtain ⟨ex, hexE, hexx⟩ := exists_edge_of_degM_pos hxpos
  have hreachx : ∀ e ∈ E, ReachM E x e.1 := by
    intro e he
    have h1 : ReachM E x ex.1 := by
      rcases hexx with h | h
      · rw [h]
        exact Relation.ReflTransGen.refl
      · refine Relation.ReflTransGen.single (Or.inr ?_)
        have h2 : (ex.1, x) = ex := by rw [← h]
        rw [h2]
        exact hexE
    exact Relation.ReflTransGen.trans h1 (hconn ex hexE e he)
  have hN2 : Normed (nrm (x, y) ::ₘ E) := by
    intro e he
    rcases Multiset.mem_cons.mp he with rfl | he2
    · rw [nrm]
      exact min_le_max
    · exact hN e he2
  have hdeg2 : ∀ v, degM (nrm (x, y) ::ₘ E) v = inc v (x, y) + degM E v := by
    intro v
    rw [degM_cons, inc_nrm]
  have hincx : inc x (x, y) = 1 := by
    rw [inc, if_pos rfl, if_neg (fun h => hxy h.symm)]
  have hincy : inc y (x, y) = 1 := by
    rw [inc, if_neg hxy, if_pos rfl]
  have heven2 : ∀ v, 2 ∣ degM (nrm (x, y) ::ₘ E) v := by
    intro v
    rw [hdeg2]
    by_cases hvx : v = x
    · rw [hvx, hincx]
      have h1 := (hodd x).mpr (Or.inl rfl)
      omega
    · by_cases hvy : v = y
      · rw [hvy, hincy]
        have h1 := (hodd y).mpr (Or.inr rfl)
        omega
      · have h0 : inc v (x, y) = 0 := by
          rw [inc, if_neg (fun h => hvx h.symm), if_neg (fun h => hvy h.symm)]
        have h1 : 2 ∣ degM E v := by
          by_contra h2
          rcases (hodd v).mp h2 with h3 | h3
          · exact hvx h3
          · exact hvy h3
        omega
  have hadj2 : adjM (nrm (x, y) ::ₘ E) x y := by
    rcases le_total x y with h | h
    · exact Or.inl (Multiset.mem_cons.mpr (Or.inl (nrm_of_le h).symm))
    · refine Or.inr (Multiset.mem_cons.mpr (Or.inl ?_))
      rw [nrm]
      simp only [min_eq_right h, max_eq_left h]
  have hreach2 : ∀ e ∈ (nrm (x, y) ::ₘ E), ReachM (nrm (x, y) ::ₘ E) x e.1 := by
    intro e he
    rcases Multiset.mem_cons.mp he with rfl | he2
    · rcases le_total x y with h | h
      · have h1 : (nrm (x, y)).1 = x := by rw [nrm_of_le h]
        rw [h1]
        exact Relation.ReflTransGen.refl
      · have hh : nrm (x, y) = (y, x) := by
          rw [nrm]
          simp only [min_eq_right h, max_eq_left h]
        have h1 : (nrm (x, y)).1 = y := by rw [hh]
        rw [h1]
        exact Relation.ReflTransGen.single hadj2
    · exact reachM_mono (Multiset.le_cons_self E _) (hreachx e he2)
  obtain ⟨q2, hq2, hsteps2⟩ := euler_circuit hN2 hreach2 heven2
  have hmem : nrm (x, y) ∈ steps q2 := by
    rw [hsteps2]
    exact Multiset.mem_cons_self _ _
  rw [steps, Multiset.mem_coe, List.mem_map] at hmem
  obtain ⟨st, hst, hstnrm⟩ := hmem
  obtain ⟨s, r, rfl⟩ := List.append_of_mem hst
  have hs := chained_of_append_left hq2.1
  have hstr := chained_of_append_right hq2.1
  have hr := (chained_cons_split hstr).1
  have hends := hq2.2.2 (by simp)
  refine ⟨r ++ s, ?_, ?_⟩
  · refine chained_append hr hs ?_
    intro hr0 hs0
    have h1 : lastV (st :: r) = lastV r := lastV_cons st hr0
    have h2 : lastV (s ++ st :: r) = lastV (st :: r) :=
      lastV_append s (List.cons_ne_nil _ _)
    have h3 : firstV (s ++ st :: r) = firstV s := firstV_append _ hs0
    rw [← h1, ← h2, hends.2, ← h3, hends.1]
  · have hsplit : steps (s ++ st :: r) = nrm (x, y) ::ₘ E := hsteps2
    rw [steps_append, steps_cons, hstnrm] at hsplit
    have hcons : steps s + (nrm (x, y) ::ₘ steps r)
        = nrm (x, y) ::ₘ (steps s + steps r) := by
      rw [← Multiset.singleton_add, ← Multiset.singleton_add]
      rw [add_left_comm]
    rw [hcons] at hsplit
    have hcancel : steps s + steps r = E := (Multiset.cons_inj_right _).mp hsplit
    rw [steps_append, add_comm]
    exact hcancel

theorem euler_trail {E : Multiset (ℕ × ℕ)} (hN : Normed E)
    (hconn : ∀ e1 ∈ E, ∀ e2 ∈ E, ReachM E e1.1 e2.1)
    (hodd : (∀ v, 2 ∣ degM E v) ∨
      ∃ x y, x ≠ y ∧ ∀ v, ¬ 2 ∣ degM E v ↔ (v = x ∨ v = y)) :
    ∃ q, Chained q ∧ steps q = E := by
  rcases hodd with h | ⟨x, y, hxy, h⟩
  · exact euler_trail_even hN hconn h
  · exact euler_trail_two_odd hN hconn hxy h

/-! ### Multiset equality via index bijections -/

theorem coe_eq_sum_get {α : Type} (l : List α) :
    (↑l : Multiset α) = ∑ i : Fin l.length, {l.get i} := by
  induction l with
  | nil => simp
  | cons x rest ih =>
      have h1 : (↑(x :: rest) : Multiset α) = {x} + ↑rest := by
        rw [show ((↑(x :: rest) : Multiset α)) = x ::ₘ ↑rest from rfl,
          ← Multiset.singleton_add]
      have h2 : ∑ i : Fin (x :: rest).length, ({(x :: rest).get i} : Multiset α)
          = ∑ i : Fin (rest.length + 1), ({(x :: rest).get i} : Multiset α) := rfl
      rw [h1, h2, Fin.sum_univ_succ]
      congr 1

theorem multiset_eq_of_get_bij {α : Type} {l1 l2 : List α}
    (f : Fin l1.length → Fin l2.length) (hbij : Function.Bijective f)
    (hget : ∀ i, l1.get i = l2.get (f i)) :
    (↑l1 : Multiset α) = ↑l2 := by
  rw [coe_eq_sum_get, coe_eq_sum_get]
  rw [← Function.Bijective.sum_comp hbij (fun j => ({l2.get j} : Multiset α))]
  refine Finset.sum_congr rfl ?_
  intro i _
  rw [hget i]

theorem perm_get_equiv {α : Type} {l1 l2 : List α} (hp : l1.Perm l2) :
    ∃ f : Fin l1.length → Fin l2.length,
      Function.Bijective f ∧ ∀ i, l1.get i = l2.get (f i) := by
  induction hp with
  | nil => exact ⟨fun i => i, Function.bijective_id, fun i => i.elim0⟩
  | @cons x t1 t2 _hp ih =>
      obtain ⟨f, hbij, hget⟩ := ih
      refine ⟨fun i =>
        match i with
        | ⟨0, _⟩ => ⟨0, Nat.succ_pos _⟩
        | ⟨j + 1, h⟩ => ⟨(f ⟨j, Nat.lt_of_succ_lt_succ h⟩).val + 1,
            Nat.succ_lt_succ (f ⟨j, Nat.lt_of_succ_lt_succ h⟩).isLt⟩,
        ⟨?_, ?_⟩, ?_⟩
      · rintro ⟨av, ha⟩ ⟨bv, hb⟩ hab
        match av, ha, bv, hb, hab with
        | 0, _, 0, _, _ => rfl
        | 0, _, b + 1, hb, hab =>
            have h1 : (0 : ℕ) = (f ⟨b, Nat.lt_of_succ_lt_succ hb⟩).val + 1 :=
              congrArg Fin.val hab
            exact absurd h1 (by omega)
        | a + 1, ha, 0, _, hab =>
            have h1 : (f ⟨a, Nat.lt_of_succ_lt_succ ha⟩).val + 1 = 0 :=
              congrArg Fin.val hab
            exact absurd h1 (by omega)
        | a + 1, ha, b + 1, hb, hab =>
            have h1 : (f ⟨a, Nat.lt_of_succ_lt_succ ha⟩).val + 1
                = (f ⟨b, Nat.lt_of_succ_lt_succ hb⟩).val + 1 := congrArg Fin.val hab
            have h2 : f ⟨a, Nat.lt_of_succ_lt_succ ha⟩ = f ⟨b, Nat.lt_of_succ_lt_succ hb⟩ :=
              Fin.ext (by omega)
            have h3 := hbij.1 h2
            have h4 : a = b := congrArg Fin.val h3
            exact Fin.ext (show a + 1 = b + 1 by omega)
      · rintro ⟨yv, hy⟩
        match yv, hy with
        | 0, hy => exact ⟨⟨0, Nat.succ_pos _⟩, rfl⟩
        | y + 1, hy =>
            obtain ⟨a, ha⟩ := hbij.2 ⟨y, Nat.lt_of_succ_lt_succ hy⟩
            obtain ⟨av, hav⟩ := a
            refine ⟨⟨av + 1, Nat.succ_lt_succ hav⟩, ?_⟩
            apply Fin.ext
            show (f ⟨av, hav⟩).val + 1 = y + 1
            have h1 : (f ⟨av, hav⟩).val = y := congrArg Fin.val ha
            omega
      · rintro ⟨iv, hi⟩
        match iv, hi with
        | 0, hi => rfl
        | j + 1, hi =>
            exact hget ⟨j, Nat.lt_of_succ_lt_succ hi⟩
  | @swap x y t =>
      refine ⟨fun i =>
        match i with
        | ⟨0, _⟩ => ⟨1, Nat.succ_lt_succ (Nat.succ_pos _)⟩
        | ⟨1, _⟩ => ⟨0, Nat.succ_pos _⟩
        | ⟨j + 2, h⟩ => ⟨j + 2, h⟩,
        ?_, ?_⟩
      · have hinv : Function.Involutive (fun i : Fin (y :: x :: t).length =>
            (match i with
            | ⟨0, _⟩ => ⟨1, Nat.succ_lt_succ (Nat.succ_pos _)⟩
            | ⟨1, _⟩ => ⟨0, Nat.succ_pos _⟩
            | ⟨j + 2, h⟩ => ⟨j + 2, h⟩ : Fin (x :: y :: t).length)) := by
          rintro ⟨iv, hi⟩
          match iv, hi with
          | 0, hi => rfl
          | 1, hi => rfl
          | j + 2, hi => rfl
        exact hinv.bijective
      · rintro ⟨iv, hi⟩
        match iv, hi with
        | 0, hi => rfl
        | 1, hi => rfl
        | j + 2, hi => rfl
  | @trans t1 t2 t3 _hp1 _hp2 ih1 ih2 =>
      obtain ⟨f1, hb1, hg1⟩ := ih1
      obtain ⟨f2, hb2, hg2⟩ := ih2
      refine ⟨f2 ∘ f1, Function.Bijective.comp hb2 hb1, ?_⟩
      intro i
      rw [hg1 i, hg2 (f1 i)]
      rfl

/-! ### Facts about the edge-occurrence list -/

theorem edgeList_mem_facts {adj : Mat} {e : ℕ × ℕ} (he : e ∈ edgeList adj) :
    e.1 ≤ e.2 ∧ e.2 < nVerts adj := by
  rw [edgeList, List.mem_flatMap] at he
  obtain ⟨i, hi, he2⟩ := he
  rw [List.mem_flatMap] at he2
  obtain ⟨j, hj, he3⟩ := he2
  rw [List.mem_range'_1] at hj
  rw [List.mem_range] at hi
  rw [List.mem_replicate] at he3
  rw [he3.2]
  exact ⟨hj.1, by omega⟩

theorem edgeList_normed (adj : Mat) : Normed ↑(edgeList adj) := by
  intro e he
  exact (edgeList_mem_facts (Multiset.mem_coe.mp he)).1

theorem degA_eq_degM (adj : Mat) (v : ℕ) :
    degA adj v = degM ↑(edgeList adj) v := by
  rw [degM, Multiset.map_coe, Multiset.sum_coe, degA]

theorem degA_out {adj : Mat} {v : ℕ} (hv : nVerts adj ≤ v) : degA adj v = 0 := by
  rw [degA]
  refine List.sum_eq_zero ?_
  intro x hx
  rw [List.mem_map] at hx
  obtain ⟨e, he, rfl⟩ := hx
  have hfacts := edgeList_mem_facts he
  have h1 : ¬ e.1 = v := by omega
  have h2 : ¬ e.2 = v := by omega
  rw [inc, if_neg h1, if_neg h2]
  rfl

theorem step_vertex_lt {adj : Mat} {q : List (ℕ × ℕ)}
    (hsteps : steps q = ↑(edgeList adj)) {st : ℕ × ℕ} (hst : st ∈ q) :
    st.1 < nVerts adj ∧ st.2 < nVerts adj := by
  have hmem : nrm st ∈ (↑(edgeList adj) : Multiset (ℕ × ℕ)) := by
    rw [← hsteps, steps, Multiset.mem_coe]
    exact List.mem_map_of_mem nrm hst
  have hfacts := edgeList_mem_facts (Multiset.mem_coe.mp hmem)
  have h1 : (nrm st).2 = max st.1 st.2 := rfl
  have h2 : st.1 ≤ max st.1 st.2 := le_max_left _ _
  have h3 : st.2 ≤ max st.1 st.2 := le_max_right _ _
  omega

theorem adjA_iff_adjM (adj : Mat) (u v : ℕ) :
    adjacentA adj u v ↔ adjM ↑(edgeList adj) u v := by
  rw [adjacentA, adjM, Multiset.mem_coe, Multiset.mem_coe]

theorem reachA_iff_reachM (adj : Mat) (u v : ℕ) :
    ReachA adj u v ↔ ReachM ↑(edgeList adj) u v := by
  constructor
  · exact Relation.ReflTransGen.mono (fun a b => (adjA_iff_adjM adj a b).mp)
  · exact Relation.ReflTransGen.mono (fun a b => (adjA_iff_adjM adj a b).mpr)

/-! ### Walk positions -/

theorem vtx_lt {q : List (ℕ × ℕ)} {s : ℕ} (h : s < q.length) :
    vtx q s = (q.get ⟨s, h⟩).1 := dif_pos h

theorem lastV_eq_get {q : List (ℕ × ℕ)} (hq : q ≠ [])
    (h : q.length - 1 < q.length) :
    lastV q = (q.get ⟨q.length - 1, h⟩).2 := by
  rw [lastV, List.getLastD_eq_getLast?, List.getLast?_eq_getLast q hq, Option.getD_some,
    List.getLast_eq_getElem, List.get_eq_getElem]

theorem vtx_end {q : List (ℕ × ℕ)} (hq : q ≠ [])
    (h : q.length - 1 < q.length) :
    vtx q q.length = (q.get ⟨q.length - 1, h⟩).2 := by
  rw [vtx, dif_neg (lt_irrefl _)]
  exact lastV_eq_get hq h

theorem chained_get {q : List (ℕ × ℕ)} (hch : Chained q) {s : ℕ}
    (h : s + 1 < q.length) :
    (q.get ⟨s, by omega⟩).2 = (q.get ⟨s + 1, h⟩).1 := by
  rw [Chained, List.chain'_iff_get] at hch
  exact hch s (by omega)

/-! ### From a satisfying model to a covering trail -/

theorem get_map_range {α : Type} (f : ℕ → α) {k s : ℕ}
    (h : s < ((List.range k).map f).length) :
    ((List.range k).map f).get ⟨s, h⟩ = f s := by
  rw [List.get_eq_getElem, List.getElem_map, List.getElem_range]

theorem trailOf_length (P : ℤ → ℤ) (k : ℕ) : (trailOf P k).length = k := by
  rw [trailOf, List.length_map, List.length_range]

theorem trailOf_get (P : ℤ → ℤ) {k s : ℕ} (h : s < (trailOf P k).length) :
    (trailOf P k).get ⟨s, h⟩ = ((P (s : ℤ)).toNat, (P ((s : ℤ) + 1)).toNat) :=
  get_map_range _ h

theorem trailOf_chained (P : ℤ → ℤ) (k : ℕ) : Chained (trailOf P k) := by
  rw [trailOf, Chained, List.chain'_map]
  cases k with
  | zero => simp
  | succ m =>
      rw [List.chain'_range_succ]
      intro i _hi
      show (P ((i : ℤ) + 1)).toNat = (P (((i + 1 : ℕ) : ℤ))).toNat
      have hc : ((i + 1 : ℕ) : ℤ) = (i : ℤ) + 1 := by push_cast; ring
      rw [hc]

theorem model_to_trail {adj : Mat} {P t : ℤ → ℤ}
    (h : (constraints adj).all (evalForm P t) = true) :
    ∃ q : List (ℕ × ℕ), Chained q ∧ steps q = ↑(edgeList adj) := by
  have hk : kCount adj = (edgeList adj).length := kCount_eq adj
  have hqlen : (trailOf P (kCount adj)).length = kCount adj := trailOf_length P _
  refine ⟨trailOf P (kCount adj), trailOf_chained P _, ?_⟩
  have hmaplen : ((trailOf P (kCount adj)).map nrm).length = kCount adj := by
    rw [List.length_map, hqlen]
  have hslot : ∀ e : Fin (edgeList adj).length,
      (t ((e : ℕ) : ℤ)).toNat < kCount adj := by
    intro e
    have he : (e : ℕ) < kCount adj := by rw [hk]; exact e.isLt
    have h1 := sat_tGe h he
    have h2 := sat_tLe h he
    omega
  set F : Fin (edgeList adj).length → Fin ((trailOf P (kCount adj)).map nrm).length :=
    fun e => ⟨(t ((e : ℕ) : ℤ)).toNat, by rw [hmaplen]; exact hslot e⟩ with hFdef
  have hFinj : Function.Injective F := by
    intro e1 e2 h12
    have hv : (t ((e1 : ℕ) : ℤ)).toNat = (t ((e2 : ℕ) : ℤ)).toNat :=
      congrArg Fin.val h12
    have he1 : (e1 : ℕ) < kCount adj := by rw [hk]; exact e1.isLt
    have he2 : (e2 : ℕ) < kCount adj := by rw [hk]; exact e2.isLt
    have hg1 := sat_tGe h he1
    have hg2 := sat_tGe h he2
    have ht : t ((e1 : ℕ) : ℤ) = t ((e2 : ℕ) : ℤ) := by omega
    by_contra hne
    have hne2 : (e1 : ℕ) ≠ (e2 : ℕ) := fun hh => hne (Fin.ext hh)
    exact sat_tNe h he1 he2 hne2 ht
  have hFbij : Function.Bijective F := by
    rw [Fintype.bijective_iff_injective_and_card]
    refine ⟨hFinj, ?_⟩
    rw [Fintype.card_fin, Fintype.card_fin, hmaplen, hk]
  have hget : ∀ e : Fin (edgeList adj).length,
      (edgeList adj).get e = ((trailOf P (kCount adj)).map nrm).get (F e) := by
    intro e
    have he : (e : ℕ) < kCount adj := by rw [hk]; exact e.isLt
    have hnn := sat_tGe h he
    have hsl := hslot e
    have hsl2 : (t ((e : ℕ) : ℤ)).toNat < (trailOf P (kCount adj)).length := by
      rw [hqlen]; exact hsl
    have hcast : (((t ((e : ℕ) : ℤ)).toNat : ℕ) : ℤ) = t ((e : ℕ) : ℤ) :=
      Int.toNat_of_nonneg hnn
    have hmap : ((trailOf P (kCount adj)).map nrm).get (F e)
        = nrm ((trailOf P (kCount adj)).get ⟨(t ((e : ℕ) : ℤ)).toNat, hsl2⟩) := by
      rw [List.get_eq_getElem, List.get_eq_getElem]
      exact List.getElem_map nrm
    have hqget := trailOf_get P hsl2
    have hedge := sat_edge h he
    have hgetD : (edgeList adj).getD (e : ℕ) (0, 0) = (edgeList adj).get e := by
      rw [List.getD_eq_getElem _ _ e.isLt, List.get_eq_getElem]
    rw [hgetD] at hedge
    have hnorm : ((edgeList adj).get e).1 ≤ ((edgeList adj).get e).2 :=
      (edgeList_mem_facts (List.get_mem (edgeList adj) (e : ℕ) e.isLt)).1
    rw [hmap, hqget]
    rcases hedge with ⟨ha, hb⟩ | ⟨ha, hb⟩
    · rw [hcast, ha, hb]
      rw [Int.toNat_natCast, Int.toNat_natCast]
      exact (nrm_of_le hnorm).symm
    · rw [hcast, ha, hb]
      rw [Int.toNat_natCast, Int.toNat_natCast]
      exact (nrm_orient hnorm (Or.inr ⟨rfl, rfl⟩)).symm
  rw [steps]
  exact (multiset_eq_of_get_bij F hFbij hget).symm

/-! ### From a covering trail to a satisfying model -/

theorem modelP_at (q : List (ℕ × ℕ)) (s : ℕ) :
    modelP q (s : ℤ) = ((vtx q s : ℕ) : ℤ) := rfl

theorem modelP_at_add (q : List (ℕ × ℕ)) (s : ℕ) :
    modelP q ((s : ℤ) + 1) = ((vtx q (s + 1) : ℕ) : ℤ) := rfl

theorem modelT_at (n : ℕ) (g : ℕ → ℕ) {i : ℕ} (hi : i < n) :
    modelT n g (i : ℤ) = ((g i : ℕ) : ℤ) := by
  rw [modelT]
  simp only [Int.toNat_natCast]
  rw [if_pos hi]

theorem trail_to_model {adj : Mat} {q : List (ℕ × ℕ)} (hch : Chained q)
    (hsteps : steps q = ↑(edgeList adj)) : Satisfiable adj := by
  have hperm : (edgeList adj).Perm (q.map nrm) := by
    rw [← Multiset.coe_eq_coe]
    rw [steps] at hsteps
    exact hsteps.symm
  obtain ⟨f, hfbij, hfget⟩ := perm_get_equiv hperm
  have hqmaplen : (q.map nrm).length = q.length := List.length_map q nrm
  have hqlen : q.length = (edgeList adj).length := by
    rw [← hqmaplen]
    exact hperm.length_eq.symm
  have hk : kCount adj = (edgeList adj).length := kCount_eq adj
  refine ⟨modelP q,
    modelT (edgeList adj).length
      (fun i => if hi : i < (edgeList adj).length then ((f ⟨i, hi⟩ : Fin _) : ℕ) else 0),
    ?_⟩
  set g : ℕ → ℕ :=
    fun i => if hi : i < (edgeList adj).length then ((f ⟨i, hi⟩ : Fin _) : ℕ) else 0
    with hgdef
  have hg : ∀ (i : ℕ) (hi : i < (edgeList adj).length), g i = ((f ⟨i, hi⟩ : Fin _) : ℕ) := by
    intro i hi
    rw [hgdef]
    exact dif_pos hi
  have hglt : ∀ (i : ℕ), i < (edgeList adj).length → g i < q.length := by
    intro i hi
    rw [hg i hi, ← hqmaplen]
    exact (f ⟨i, hi⟩).isLt
  rw [List.all_eq_true]
  intro c hc
  rw [constraints_eq, List.mem_append] at hc
  rcases hc with hc | hc
  · rw [mem_emitFrom] at hc
    obtain ⟨s, hs, rfl⟩ := hc
    rw [Nat.zero_add]
    rw [evalForm_edgeFormula]
    have hsl : g s < q.length := hglt s hs
    have hT : modelT (edgeList adj).length g (s : ℤ) = ((g s : ℕ) : ℤ) :=
      modelT_at _ g hs
    rw [hT, modelP_at, modelP_at_add]
    have hv1 : vtx q (g s) = (q.get ⟨g s, hsl⟩).1 := vtx_lt hsl
    have hv2 : vtx q (g s + 1) = (q.get ⟨g s, hsl⟩).2 := by
      by_cases h2 : g s + 1 < q.length
      · rw [vtx_lt h2]
        exact (chained_get hch h2).symm
      · have hlen : g s + 1 = q.length := by omega
        have hq0 : q ≠ [] := by
          intro hq
          rw [hq] at hsl
          simp at hsl
        have hidx : q.length - 1 < q.length := by omega
        have hv := vtx_end hq0 hidx
        rw [hlen, hv]
        have hFi : (⟨q.length - 1, hidx⟩ : Fin q.length) = ⟨g s, hsl⟩ :=
          Fin.ext (show q.length - 1 = g s by omega)
        rw [hFi]
    have hsl2 : g s < (q.map nrm).length := by rw [hqmaplen]; exact hsl
    have hFi2 : f ⟨s, hs⟩ = ⟨g s, hsl2⟩ := Fin.ext (hg s hs).symm
    have hnrm : nrm (q.get ⟨g s, hsl⟩) = (edgeList adj).get ⟨s, hs⟩ := by
      have h1 := hfget ⟨s, hs⟩
      rw [hFi2] at h1
      rw [h1, List.get_eq_getElem, List.get_eq_getElem]
      exact (List.getElem_map nrm).symm
    have hgetD : (edgeList adj).getD s (0, 0) = (edgeList adj).get ⟨s, hs⟩ := by
      rw [List.getD_eq_getElem _ _ hs, List.get_eq_getElem]
    have hle2 : ((edgeList adj).get ⟨s, hs⟩).1 ≤ ((edgeList adj).get ⟨s, hs⟩).2 :=
      (edgeList_mem_facts (List.get_mem (edgeList adj) s hs)).1
    rcases nrm_cases (a := (q.get ⟨g s, hsl⟩).1) (b := (q.get ⟨g s, hsl⟩).2)
        (u := ((edgeList adj).get ⟨s, hs⟩).1) (v := ((edgeList adj).get ⟨s, hs⟩).2)
        (by rw [← hnrm]) with h | h
    · refine Or.inl ⟨?_, ?_⟩
      · rw [hgetD, hv1, h.1]
      · rw [hgetD, hv2, h.2]
    · refine Or.inr ⟨?_, ?_⟩
      · rw [hgetD, hv1, h.1]
      · rw [hgetD, hv2, h.2]
  · rw [mem_permFlat] at hc
    obtain ⟨i, hi, hc⟩ := hc
    have hik : i < (edgeList adj).length := by rw [← hk]; exact hi
    rcases hc with rfl | rfl | ⟨j, hj, hij, rfl⟩
    · rw [evalForm_tLe, modelT_at _ g hik]
      have h1 := hglt i hik
      have h2 : q.length = kCount adj := by rw [hqlen, hk]
      omega
    · rw [evalForm_tGe, modelT_at _ g hik]
      omega
    · have hjk : j < (edgeList adj).length := by rw [← hk]; exact hj
      rw [evalForm_tNe, modelT_at _ g hik, modelT_at _ g hjk]
      have hne : g i ≠ g j := by
        rw [hg i hik, hg j hjk]
        intro heq
        have h1 : f ⟨i, hik⟩ = f ⟨j, hjk⟩ := Fin.ext heq
        have h2 := hfbij.1 h1
        have h3 : i = j := congrArg Fin.val h2
        exact hij h3
      intro heq
      have : g i = g j := by exact_mod_cast heq
      exact hne this

/-! ### The parity law -/

theorem sat_parity {adj : Mat} (hs : Satisfiable adj) :
    (oddVerts adj).card = 0 ∨ (oddVerts adj).card = 2 := by
  obtain ⟨P, t, h⟩ := hs
  obtain ⟨q, hch, hsteps⟩ := model_to_trail h
  have hdeg : ∀ v, degA adj v = (q.map (inc v)).sum := by
    intro v
    rw [degA_eq_degM, ← hsteps, degM_steps]
  by_cases hq0 : q = []
  · left
    rw [Finset.card_eq_zero, oddVerts, Finset.filter_eq_empty_iff]
    intro v _
    rw [not_not, hdeg v, hq0]
    simp
  · have hpar := fun v => walk_parity v q hch hq0
    by_cases hab : firstV q = lastV q
    · left
      rw [Finset.card_eq_zero, oddVerts, Finset.filter_eq_empty_iff]
      intro v _
      rw [not_not, hdeg v]
      have hp := hpar v
      rw [← hab] at hp
      by_cases hav : firstV q = v
      · rw [if_pos hav] at hp
        omega
      · rw [if_neg hav] at hp
        omega
    · right
      have hhead : firstV q = (q.head hq0).1 := by
        rw [firstV, List.headD_eq_head?_getD, List.head?_eq_head hq0, Option.getD_some]
      have hlast : lastV q = (q.getLast hq0).2 := by
        rw [lastV, List.getLastD_eq_getLast?, List.getLast?_eq_getLast q hq0,
          Option.getD_some]
      have hafacts := step_vertex_lt hsteps (List.head_mem hq0)
      have hbfacts := step_vertex_lt hsteps (List.getLast_mem hq0)
      have han : firstV q < nVerts adj := by rw [hhead]; exact hafacts.1
      have hbn : lastV q < nVerts adj := by rw [hlast]; exact hbfacts.2
      have hset : oddVerts adj = {firstV q, lastV q} := by
        rw [oddVerts]
        apply Finset.ext
        intro v
        rw [Finset.mem_filter, Finset.mem_range, Finset.mem_insert, Finset.mem_singleton]
        constructor
        · rintro ⟨_hvn, hodd⟩
          rw [hdeg v] at hodd
          have hp := hpar v
          by_cases hav : firstV q = v
          · exact Or.inl hav.symm
          · by_cases hbv : lastV q = v
            · exact Or.inr hbv.symm
            · exfalso
              rw [if_neg hav, if_neg hbv] at hp
              omega
        · rintro (rfl | rfl)
          · refine ⟨han, ?_⟩
            have hp := hpar (firstV q)
            rw [if_pos rfl] at hp
            have hbne : ¬ lastV q = firstV q := fun hh => hab hh.symm
            rw [if_neg hbne] at hp
            rw [hdeg (firstV q)]
            omega
          · refine ⟨hbn, ?_⟩
            have hp := hpar (lastV q)
            rw [if_pos rfl] at hp
            rw [if_neg hab] at hp
            rw [hdeg (lastV q)]
            omega
      rw [hset]
      exact Finset.card_pair hab

theorem sat_connects {adj : Mat} (hs : Satisfiable adj) :
    ∀ e1 ∈ edgeList adj, ∀ e2 ∈ edgeList adj, ReachA adj e1.1 e2.1 := by
  obtain ⟨P, t, h⟩ := hs
  obtain ⟨q, hch, hsteps⟩ := model_to_trail h
  intro e1 he1 e2 he2
  rw [reachA_iff_reachM]
  have hmem : ∀ e ∈ edgeList adj, ∃ st ∈ q, nrm st = e := by
    intro e he
    have hin : e ∈ steps q := by
      rw [hsteps]
      exact Multiset.mem_coe.mpr he
    rw [steps, Multiset.mem_coe, List.mem_map] at hin
    obtain ⟨st, h1, h2⟩ := hin
    exact ⟨st, h1, h2⟩
  obtain ⟨st1, hst1, hn1⟩ := hmem e1 he1
  obtain ⟨st2, hst2, hn2⟩ := hmem e2 he2
  have hadj : ∀ st ∈ q, adjM ↑(edgeList adj) st.1 st.2 := by
    intro st hst
    have hin : nrm st ∈ (↑(edgeList adj) : Multiset (ℕ × ℕ)) := by
      rw [← hsteps, steps, Multiset.mem_coe]
      exact List.mem_map_of_mem nrm hst
    rcases st with ⟨c, d⟩
    rcases le_total c d with hcd | hcd
    · refine Or.inl ?_
      rw [nrm_of_le (show ((c, d) : ℕ × ℕ).1 ≤ (c, d).2 from hcd)] at hin
      exact hin
    · refine Or.inr ?_
      have hnn : nrm (c, d) = (d, c) := by
        rw [nrm]
        simp only [min_eq_right hcd, max_eq_left hcd]
      rw [hnn] at hin
      exact hin
  have hreach := reach_of_chained q hch hadj
  have h1 := hreach st1 hst1
  have h2 := hreach st2 hst2
  have he1v : ReachM ↑(edgeList adj) (firstV q) e1.1 := by
    rcases nrm_cases hn1 with ⟨ha, _⟩ | ⟨_, hb⟩
    · rw [← ha]
      exact h1.1
    · rw [← hb]
      exact h1.2
  have he2v : ReachM ↑(edgeList adj) (firstV q) e2.1 := by
    rcases nrm_cases hn2 with ⟨ha, _⟩ | ⟨_, hb⟩
    · rw [← ha]
      exact h2.1
    · rw [← hb]
      exact h2.2
  exact Relation.ReflTransGen.trans (reachM_symm he1v) he2v

theorem parity_sat {adj : Mat} (hconn : Connected adj)
    (hcard : (oddVerts adj).card = 0 ∨ (oddVerts adj).card = 2) :
    Satisfiable adj := by
  have hN := edgeList_normed adj
  have hconn2 : ∀ e1 ∈ (↑(edgeList adj) : Multiset (ℕ × ℕ)),
      ∀ e2 ∈ (↑(edgeList adj) : Multiset (ℕ × ℕ)),
        ReachM ↑(edgeList adj) e1.1 e2.1 := by
    intro e1 he1 e2 he2
    rw [← reachA_iff_reachM]
    have h1 := edgeList_mem_facts (Multiset.mem_coe.mp he1)
    have h2 := edgeList_mem_facts (Multiset.mem_coe.mp he2)
    exact hconn e1.1 (by omega) e2.1 (by omega)
  have hodd : (∀ v, 2 ∣ degM ↑(edgeList adj) v) ∨
      ∃ x y, x ≠ y ∧ ∀ v, ¬ 2 ∣ degM ↑(edgeList adj) v ↔ (v = x ∨ v = y) := by
    rcases hcard with h0 | h2
    · left
      intro v
      rw [← degA_eq_degM]
      by_cases hv : v < nVerts adj
      · by_contra hodd
        have hin : v ∈ oddVerts adj := by
          rw [oddVerts, Finset.mem_filter, Finset.mem_range]
          exact ⟨hv, hodd⟩
        rw [Finset.card_eq_zero] at h0
        rw [h0] at hin
        simp at hin
      · rw [degA_out (by omega)]
        exact ⟨0, rfl⟩
    · right
      rw [Finset.card_eq_two] at h2
      obtain ⟨x, y, hxy, hset⟩ := h2
      refine ⟨x, y, hxy, ?_⟩
      intro v
      rw [← degA_eq_degM]
      constructor
      · intro hodd
        by_cases hv : v < nVerts adj
        · have hin : v ∈ oddVerts adj := by
            rw [oddVerts, Finset.mem_filter, Finset.mem_range]
            exact ⟨hv, hodd⟩
          rw [hset, Finset.mem_insert, Finset.mem_singleton] at hin
          exact hin
        · exfalso
          rw [degA_out (by omega)] at hodd
          exact hodd ⟨0, rfl⟩
      · intro hv
        have hmem : v ∈ oddVerts adj := by
          rw [hset, Finset.mem_insert, Finset.mem_singleton]
          exact hv
        rw [oddVerts, Finset.mem_filter] at hmem
        exact hmem.2
  obtain ⟨q, hch, hsteps⟩ := euler_trail hN hconn2 hodd
  exact trail_to_model hch hsteps

/-- C2: the parity law.  On a connected input multigraph the asserted
constraint set is satisfiable iff the number of odd-degree vertices is 0 or 2,
and whenever two edge occurrences lie in different connected components the
constraint set is unsatisfiable. -/
theorem parity_law (adj : Mat) : ParityStatement adj := by
  constructor
  · intro hconn
    exact ⟨fun hs => sat_parity hs, fun hcard => parity_sat hconn hcard⟩
  · rintro ⟨e1, he1, e2, he2, hnr⟩ hs
    exact hnr (sat_connects hs e1 he1 e2 he2)

end EulerZ3
